import Mathlib

/-!
Verification of the fidesops task-execution core against its specification.

The Python sources embedded here:
- src/fidesops/task/filter_results.py (select_and_save_field, remove_empty_containers)
- src/fidesops/service/connectors/sql_connector.py (retrieve_data, mask_data)
- src/fidesops/core/config.py (CONFIG_KEY_ALLOWLIST, get_censored_config)
- src/fidesops/api/v1/endpoints/privacy_request_endpoints.py (execution_logs_by_dataset_name)

Components whose code is not in the repository snapshot (the graph_task engine,
query_config statement generation, and the data-category matcher of
filter_data_categories) are modelled from the specification; each such
definition carries a doc comment starting with `Modelled from the spec:`.
-/

namespace Fidesops

/-- A Python value as it appears in retrieved rows: scalars (strings, ints,
None), dictionaries (insertion-ordered, string keys) and lists.  Python
dictionaries have unique keys; `obj` values produced by the embedded functions
preserve that invariant. -/
inductive PValue where
  | vstr : String → PValue
  | vint : Int → PValue
  | vnull : PValue
  | obj : List (String × PValue) → PValue
  | arr : List PValue → PValue

/-- `value in [{}, []]` from remove_empty_containers: true exactly for the
empty dict and the empty list (no scalar compares equal to either). -/
def PValue.isEmptyContainer : PValue → Bool
  | .obj [] => true
  | .arr [] => true
  | _ => false

/-- `_defaultdict_or_array` from select_and_save_field: an empty dict for a
dict, an empty array for an array, the resource itself otherwise. -/
def defaultdictOrArray : PValue → PValue
  | .obj _ => .obj []
  | .arr _ => .arr []
  | v => v

/-- First-match association-list lookup, as Python dict indexing (dict keys
are unique, so first match is the only match). -/
def lookupField : List (String × PValue) → String → Option PValue
  | [], _ => none
  | (k', v') :: rest, k => if k' = k then some v' else lookupField rest k

/-- Python `saved[key] = nv`: replace in place when the key exists (keeping
insertion order), append at the end when it does not. -/
def updateField : List (String × PValue) → String → PValue → List (String × PValue)
  | [], k, v => [(k, v)]
  | (k', v') :: rest, k, v =>
    if k' = k then (k, v) :: rest else (k', v') :: updateField rest k v

/-- The seed for `saved[key]` in the dict branch of select_and_save_field:
the existing entry when the key is already in the accumulator, else
`_defaultdict_or_array` of the row value. -/
def savedInit (sfs : List (String × PValue)) (k : String) (v : PValue) : PValue :=
  match lookupField sfs k with
  | some cur => cur
  | none => defaultdictOrArray v

mutual
/-- select_and_save_field from filter_results.py.  `none` models an uncaught
Python exception: a `TypeError`/`KeyError` when `saved` does not have the same
container shape as `row`, or the `IndexError` from `target_path.levels[0]`
when the path is exhausted on a non-empty dict row.  (The `except IndexError`
in the list branch re-raises from the append call, so a levels-IndexError
always escapes: it depends only on `row` and the path, not on `saved`.) -/
def selectAndSaveField : PValue → PValue → List String → Option PValue
  | saved, .arr [], _ => some saved
  | .arr ss, .arr (e :: es), path => (selectList ss (e :: es) path).map .arr
  | _, .arr (_ :: _), _ => none
  | saved, .obj fs, [] => if fs.isEmpty then some saved else none
  | saved, .obj fs, p :: ps => selectObjFields saved fs p ps
  | saved, .vstr _, _ => some saved
  | saved, .vint _, _ => some saved
  | saved, .vnull, _ => some saved

/-- The `for key in row` loop of select_and_save_field on a dict row: when a
key equals the first path level, seed `saved[key]` (existing entry, else
`_defaultdict_or_array` of the row value) and descend along the remaining
levels; other keys are skipped.  Python dict keys are unique, so at most one
iteration acts. -/
def selectObjFields : PValue → List (String × PValue) → String → List String → Option PValue
  | saved, [], _, _ => some saved
  | saved, (k, v) :: rest, p, ps =>
    if k = p then
      match saved with
      | .obj sfs =>
        match selectAndSaveField (savedInit sfs p v) v ps with
        | none => none
        | some nv => selectObjFields (.obj (updateField sfs p nv)) rest p ps
      | _ => none
    else selectObjFields saved rest p ps

/-- The list branch of select_and_save_field: positions below the saved
length are updated in place, the remainder is appended starting from
`_defaultdict_or_array` of the element; surplus saved entries stay. -/
def selectList : List PValue → List PValue → List String → Option (List PValue)
  | ss, [], _ => some ss
  | [], e :: es, path =>
    match selectAndSaveField (defaultdictOrArray e) e path with
    | none => none
    | some first =>
      match selectList [] es path with
      | none => none
      | some rest => some (first :: rest)
  | s :: ss, e :: es, path =>
    match selectAndSaveField s e path with
    | none => none
    | some first =>
      match selectList ss es path with
      | none => none
      | some rest => some (first :: rest)
end

mutual
/-- remove_empty_containers from filter_results.py: recursively delete empty
dicts and empty arrays at every level (the dict branch deletes keys whose
recursively-pruned value is empty; the list branch pops such elements). -/
def removeEmptyContainers : PValue → PValue
  | .vstr s => .vstr s
  | .vint n => .vint n
  | .vnull => .vnull
  | .obj fs => .obj (pruneFields fs)
  | .arr es => .arr (pruneElems es)

/-- Dict branch of remove_empty_containers. -/
def pruneFields : List (String × PValue) → List (String × PValue)
  | [] => []
  | (k, v) :: rest =>
    let v' := removeEmptyContainers v
    if v'.isEmptyContainer then pruneFields rest else (k, v') :: pruneFields rest

/-- List branch of remove_empty_containers. -/
def pruneElems : List PValue → List PValue
  | [] => []
  | e :: rest =>
    let e' := removeEmptyContainers e
    if e'.isEmptyContainer then pruneElems rest else e' :: pruneElems rest
end

/-! ### Result filter driver (data-category selection)

The driver `filter_data_categories` lives in fidesops/task/graph_task.py,
which is not part of this repository snapshot; the category matcher and the
per-row driver are modelled from the spec.  `select_and_save_field` and
`remove_empty_containers` above are embedded from the source. -/

/-- Modelled from the spec: missing `filter_data_categories` (graph_task.py).
A data category is a dotted string, represented as its list of segments.  A
field matches when some requested category is a dotted-segment prefix of some
category on the field. -/
def dataCategoryMatch (requested : List (List String)) (fieldCats : List (List String)) : Bool :=
  requested.any fun r => fieldCats.any fun c => r.isPrefixOf c

/-- Modelled from the spec: missing `filter_data_categories` (graph_task.py).
Each field is (field path, data categories); the matching field paths are
kept in field order. -/
def matchingFieldPaths (requested : List (List String))
    (fields : List (List String × List (List String))) : List (List String) :=
  fields.filterMap fun f => if dataCategoryMatch requested f.2 then some f.1 else none

/-- Fold select_and_save_field over the target paths, starting from an
accumulator seeded as an empty container of the row's shape. -/
def selectAll (paths : List (List String)) (row : PValue) : Option PValue :=
  paths.foldl (fun acc p => acc.bind fun a => selectAndSaveField a row p)
    (some (defaultdictOrArray row))

/-- Modelled from the spec: missing `filter_data_categories` (graph_task.py)
per-row pipeline — walk the matching field paths into a fresh accumulator,
then prune empty containers.  `none` is an uncaught Python exception. -/
def filterRow (paths : List (List String)) (row : PValue) : Option PValue :=
  (selectAll paths row).map removeEmptyContainers

/-- Modelled from the spec: the full per-row category filter. -/
def filterRowByCategories (requested : List (List String))
    (fields : List (List String × List (List String))) (row : PValue) : Option PValue :=
  filterRow (matchingFieldPaths requested fields) row

/-! ### Auxiliary notions for the filter claims -/

/-- One step into a nested value: a dict key or a list index. -/
inductive PathStep where
  | key : String → PathStep
  | idx : Nat → PathStep

/-- Look a value up along a path of keys and indices. -/
def getPath : PValue → List PathStep → Option PValue
  | v, [] => some v
  | .obj fs, .key k :: rest =>
    match lookupField fs k with
    | some u => getPath u rest
    | none => none
  | .arr es, .idx i :: rest =>
    match es.get? i with
    | some u => getPath u rest
    | none => none
  | _, _ => none

mutual
/-- No empty dict and no empty array occurs strictly inside the value. -/
def noEmptyInside : PValue → Bool
  | .vstr _ => true
  | .vint _ => true
  | .vnull => true
  | .obj fs => noEmptyFields fs
  | .arr es => noEmptyElems es

/-- Entry values of a dict are non-empty and recursively clean. -/
def noEmptyFields : List (String × PValue) → Bool
  | [] => true
  | (_, v) :: rest => !v.isEmptyContainer && noEmptyInside v && noEmptyFields rest

/-- Elements of an array are non-empty and recursively clean. -/
def noEmptyElems : List PValue → Bool
  | [] => true
  | e :: es => !e.isEmptyContainer && noEmptyInside e && noEmptyElems es
end

mutual
/-- `SubVal x y`: `x` is obtained from `y` by deleting some dict entries and
some array elements, at any depth; kept dict entries keep their keys and kept
array elements keep their relative order. -/
inductive SubVal : PValue → PValue → Prop where
  | vstr (s) : SubVal (.vstr s) (.vstr s)
  | vint (n) : SubVal (.vint n) (.vint n)
  | vnull : SubVal .vnull .vnull
  | obj {fs gs} : SubFields fs gs → SubVal (.obj fs) (.obj gs)
  | arr {xs ys} : SubElems xs ys → SubVal (.arr xs) (.arr ys)

/-- Entry-wise deletion relation on dict entries. -/
inductive SubFields : List (String × PValue) → List (String × PValue) → Prop where
  | nil : SubFields [] []
  | keep {v w fs gs} (k) : SubVal v w → SubFields fs gs → SubFields ((k, v) :: fs) ((k, w) :: gs)
  | drop {fs gs w} (k) : SubFields fs gs → SubFields fs ((k, w) :: gs)

/-- Element-wise deletion relation on array elements. -/
inductive SubElems : List PValue → List PValue → Prop where
  | nil : SubElems [] []
  | keep {x y xs ys} : SubVal x y → SubElems xs ys → SubElems (x :: xs) (y :: ys)
  | drop {xs ys y} : SubElems xs ys → SubElems xs (y :: ys)
end

/-! ### A direct characterization of the select fold (used for idempotence)

`projRow P v` computes, by structural recursion, the value that folding
`select_and_save_field` over the path list `P` produces on row `v`;
`crashFreePath p v` decides whether selecting path `p` from `v` raises an
uncaught exception.  Both are proof devices, not embedded source code. -/

/-- Generic association-list lookup (first match). -/
def alookup {β : Type _} : List (String × β) → String → Option β
  | [], _ => none
  | (k', v') :: rest, k => if k' = k then some v' else alookup rest k

/-- One step of `headOrder`: record the head of a path the first time it is
seen. -/
def headOrderStep (acc : List String) (p : List String) : List String :=
  match p with
  | [] => acc
  | k :: _ => if k ∈ acc then acc else acc ++ [k]

/-- The heads of the paths in order of first occurrence (the insertion order
of keys into the select accumulator). -/
def headOrder (P : List (List String)) : List String :=
  P.foldl headOrderStep []

/-- The tails of the paths whose head is `k`, in order. -/
def pathTails (P : List (List String)) (k : String) : List (List String) :=
  P.filterMap fun p =>
    match p with
    | [] => none
    | k' :: ps => if k' = k then some ps else none

/-- Keep, in the order of `ks`, the entries of `entries` with those keys. -/
def reorderByKeys (ks : List String) (entries : List (String × PValue)) : List (String × PValue) :=
  ks.filterMap fun k => (lookupField entries k).map fun v => (k, v)

mutual
/-- The value produced by folding select over all paths in `P` on row `v`
(provided no crash): scalars are copied; arrays map the projection over all
elements once any path exists; dict entries are those of `v` whose key is hit
by some path, ordered by first hit, each projected along the matching tails. -/
def projRow : List (List String) → PValue → PValue
  | _, .vstr s => .vstr s
  | _, .vint n => .vint n
  | _, .vnull => .vnull
  | P, .arr es => if P.isEmpty then .arr [] else .arr (projElems P es)
  | P, .obj fs => .obj (reorderByKeys (headOrder P) (projFields P fs))

/-- Elementwise projection of array elements. -/
def projElems (P : List (List String)) : List PValue → List PValue
  | [] => []
  | e :: es => projRow P e :: projElems P es

/-- Project every dict entry along the tails of the paths matching its key. -/
def projFields (P : List (List String)) : List (String × PValue) → List (String × PValue)
  | [] => []
  | (k, v) :: rest => (k, projRow (pathTails P k) v) :: projFields P rest
end

mutual
/-- Whether selecting path `p` from row `v` avoids every uncaught exception
(the only one reachable from a shape-matching accumulator is the
`target_path.levels[0]` IndexError on an exhausted path at a non-empty dict). -/
def crashFreePath : List String → PValue → Bool
  | _, .vstr _ => true
  | _, .vint _ => true
  | _, .vnull => true
  | p, .arr es => crashFreeElems p es
  | [], .obj fs => fs.isEmpty
  | p :: ps, .obj fs => crashFreeFields ps fs p

/-- All elements admit the path. -/
def crashFreeElems (p : List String) : List PValue → Bool
  | [] => true
  | e :: es => crashFreePath p e && crashFreeElems p es

/-- The entry named `p`, if any, admits the remaining levels. -/
def crashFreeFields (ps : List String) : List (String × PValue) → String → Bool
  | [], _ => true
  | (k, v) :: rest, p =>
    (if k = p then crashFreePath ps v else true) && crashFreeFields ps rest p
end

/-- Fold select over the paths starting from an arbitrary accumulator. -/
def selectFrom (a : PValue) (row : PValue) (paths : List (List String)) : Option PValue :=
  paths.foldl (fun acc p => acc.bind fun x => selectAndSaveField x row p) (some a)

mutual
/-- A value representable as a Python row: every dict level has unique keys. -/
def rowWF : PValue → Bool
  | .vstr _ => true
  | .vint _ => true
  | .vnull => true
  | .obj fs => fieldsWF fs
  | .arr es => elemsWF es

/-- Unique keys at this dict level, recursively well-formed values. -/
def fieldsWF : List (String × PValue) → Bool
  | [] => true
  | (k, v) :: rest => !(lookupField rest k).isSome && rowWF v && fieldsWF rest

/-- All elements recursively well-formed. -/
def elemsWF : List PValue → Bool
  | [] => true
  | e :: es => rowWF e && elemsWF es
end

/-! ### SQL connector (sql_connector.py)

`retrieve_data` and `mask_data` are embedded from the source.  The statement
builders `generate_query` / `generate_update_stmt` live in query_config.py,
which is not in the snapshot, and are modelled from the spec.  Statement
execution against the data store is abstracted into an explicit function so
that the executed statements are observable. -/

/-- A traversal node as the SQL query builder sees it: its collection and the
destination field names of its incoming edges (the seeded query fields). -/
structure NodeSpec where
  collection : String
  queryKeys : List String

/-- A `SELECT <all columns> FROM collection WHERE field IN (values) OR ...`
statement: one IN clause per non-empty input field. -/
structure SqlQuery (α : Type _) where
  collection : String
  clauses : List (String × List α)

/-- Modelled from the spec: `SQLQueryConfig.generate_query` (query_config.py
is not in the snapshot).  For each seeded field, collect its input values
dropping `None`s; keep the non-empty clauses, combined with OR; if no input
field has a non-empty list, return `None`. -/
def generate_query {α : Type _} (node : NodeSpec)
    (input_data : List (String × List (Option α))) : Option (SqlQuery α) :=
  let clauses := node.queryKeys.filterMap fun k =>
    let vs := ((alookup input_data k).getD []).filterMap id
    if vs.isEmpty then none else some (k, vs)
  if clauses.isEmpty then none else some ⟨node.collection, clauses⟩

/-- `SQLConnector.retrieve_data` from sql_connector.py: build the query; when
it is `None` return `[]` before touching the connection; otherwise execute it
and convert the cursor rows.  The second component lists the statements
actually executed. -/
def retrieve_data {α ρ : Type _} (execQuery : SqlQuery α → List ρ) (node : NodeSpec)
    (input_data : List (String × List (Option α))) : List ρ × List (SqlQuery α) :=
  match generate_query node input_data with
  | none => ([], [])
  | some stmt => (execQuery stmt, [stmt])

/-- A field declaration of a collection: name, primary-key flag, data
categories (as segment lists). -/
structure FieldDecl where
  name : String
  primary_key : Bool
  data_categories : List (List String)
deriving DecidableEq

/-- An `UPDATE collection SET masked fields WHERE pkField = pkValue`
statement. -/
structure SqlUpdate (α : Type _) where
  collection : String
  pkField : String
  pkValue : α
  maskedFields : List String

/-- Modelled from the spec: `SQLQueryConfig.generate_update_stmt`
(query_config.py is not in the snapshot).  Requires a primary-key field with
a non-null value in the row, else `None`; masks the fields whose data
categories match an erasure-rule target as a dotted-segment prefix; if no
field is targeted, `None`. -/
def generate_update_stmt {α : Type _} (collection : String) (fields : List FieldDecl)
    (targets : List (List String)) (row : List (String × Option α)) : Option (SqlUpdate α) :=
  let pk := (fields.filterMap fun f =>
    if f.primary_key then
      ((alookup row f.name).bind id).map fun v => (f.name, v)
    else none).head?
  let masked := fields.filterMap fun f =>
    if dataCategoryMatch targets f.data_categories then some f.name else none
  match pk with
  | none => none
  | some pkv => if masked.isEmpty then none else some ⟨collection, pkv.1, pkv.2, masked⟩

/-- `SQLConnector.mask_data` from sql_connector.py: starting from
`update_ct = 0`, for each row build the update statement; skip `None`
statements, execute the others and add their affected-row count.  The second
component lists the statements actually executed. -/
def mask_data {α : Type _} (genUpdate : List (String × Option α) → Option (SqlUpdate α))
    (execUpdate : SqlUpdate α → Nat)
    (rows : List (List (String × Option α))) : Nat × List (SqlUpdate α) :=
  rows.foldl (fun acc row =>
    match genUpdate row with
    | none => acc
    | some stmt => (acc.1 + execUpdate stmt, acc.2 ++ [stmt])) (0, [])

/-! ### Task execution engine (graph_task.py, not in the snapshot)

The retry wrapper, the per-node erasure guard and the access DAG walk are
modelled from the spec; exceptions raised by a connector call are modelled as
`none` results. -/

/-- ExecutionLog status values (models/privacy_request.py). -/
inductive ExecLogStatus where
  | in_processing
  | retrying
  | complete
  | error
  | paused
deriving DecidableEq

/-- Modelled from the spec: the retry loop of the task engine.  `call n` is
the connector invocation on attempt `n` (`none` = raised exception);
`remaining` counts the retries still allowed.  Each failure with retries left
logs `retrying`; a failure with none left logs `error`; a success logs
`complete`. -/
def retryGo {α : Type _} (call : Nat → Option α) (attempt : Nat) :
    Nat → List ExecLogStatus × Option α
  | 0 =>
    match call attempt with
    | some a => ([.complete], some a)
    | none => ([.error], none)
  | remaining + 1 =>
    match call attempt with
    | some a => ([.complete], some a)
    | none =>
      let rest := retryGo call (attempt + 1) remaining
      (.retrying :: rest.1, rest.2)

/-- Modelled from the spec: one node's execution logs: `in_processing` first,
then the retry loop with `TASK_RETRY_COUNT` retries. -/
def nodeLogs {α : Type _} (retryCount : Nat) (call : Nat → Option α) :
    List ExecLogStatus × Option α :=
  let r := retryGo call 0 retryCount
  (.in_processing :: r.1, r.2)

/-- A collection declaration: name and fields. -/
structure CollectionDecl where
  name : String
  fields : List FieldDecl
deriving DecidableEq

/-- The collection has at least one `primary_key=true` field. -/
def hasPrimaryKey (c : CollectionDecl) : Bool :=
  c.fields.any (·.primary_key)

/-- An execution-log record as the erasure pass writes it. -/
structure ExecLogEntry where
  collection : String
  status : ExecLogStatus
  message : Option String

/-- The diagnostic message logged when erasure skips a collection without a
primary key. -/
def noPkMessage : String :=
  "No values were erased since no primary key was defined for this collection"

/-- Modelled from the spec: the erasure pass for one collection.  A
collection with no `primary_key=true` field masks 0 rows and logs the
diagnostic message; otherwise `mask_data` runs (its count abstracted as
`maskCount`) and the node logs completion. -/
def erasureNodeStep (c : CollectionDecl) (maskCount : Nat) : Nat × List ExecLogEntry :=
  if hasPrimaryKey c then
    (maskCount, [⟨c.name, .complete, none⟩])
  else
    (0, [⟨c.name, .complete, some noPkMessage⟩])

/-- Modelled from the spec: the erasure pass over all collections: a result
map entry per collection plus the concatenated logs. -/
def run_erasure (cols : List CollectionDecl) (maskCounts : String → Nat) :
    List (String × Nat) × List ExecLogEntry :=
  (cols.map fun c => (c.name, (erasureNodeStep c (maskCounts c.name)).1),
   cols.foldr (fun c acc => (erasureNodeStep c (maskCounts c.name)).2 ++ acc) [])

/-- A node of the execution DAG: its name and incoming edges
(upstream node, source field, destination field). -/
structure GraphNodeSpec where
  name : String
  incoming : List (String × String × String)

/-- Modelled from the spec: build a node's `input_data` from upstream
outputs: for each incoming edge, the source-field values observed in the
upstream rows, de-duplicated preserving order, keyed by destination field. -/
def nodeInputs {α : Type _} [DecidableEq α] (outputs : String → List (List (String × α)))
    (n : GraphNodeSpec) : List (String × List α) :=
  n.incoming.map fun e =>
    (e.2.2, ((outputs e.1).filterMap fun row => alookup row e.2.1).dedup)

/-- Modelled from the spec: one node of the access pass.  The node gathers
inputs from upstream outputs and runs its connector under the retry loop; on
success the rows are published and recorded in the result map; on exhausted
retries the node publishes an empty row list and is omitted from the result
map. -/
def accessStep {α : Type _} [DecidableEq α] (retryCount : Nat)
    (connector : String → List (String × List α) → Nat → Option (List (List (String × α))))
    (st : List (String × List (List (String × α))) × (String → List (List (String × α))))
    (n : GraphNodeSpec) :
    List (String × List (List (String × α))) × (String → List (List (String × α))) :=
  match (retryGo (connector n.name (nodeInputs st.2 n)) 0 retryCount).2 with
  | some rows => (st.1 ++ [(n.name, rows)], fun m => if m = n.name then rows else st.2 m)
  | none => (st.1, fun m => if m = n.name then [] else st.2 m)

/-- Modelled from the spec: the access pass over a topologically-ordered node
list. -/
def run_access {α : Type _} [DecidableEq α] (nodes : List GraphNodeSpec) (retryCount : Nat)
    (connector : String → List (String × List α) → Nat → Option (List (List (String × α)))) :
    List (String × List (List (String × α))) × (String → List (List (String × α))) :=
  nodes.foldl (accessStep retryCount connector) ([], fun _ => [])

/-! ### Configuration censoring (core/config.py) -/

/-- A configuration value as it appears in `FidesopsConfig.dict()`. -/
inductive ConfigVal where
  | s : String → ConfigVal
  | n : Int → ConfigVal
  | b : Bool → ConfigVal
  | strs : List String → ConfigVal
  | opt : Option String → ConfigVal
  | tup : Option (String × String) → ConfigVal
deriving DecidableEq

/-- DatabaseSettings from core/config.py. -/
structure DatabaseSettings where
  SERVER : String
  USER : String
  PASSWORD : String
  DB : String
  PORT : String
  TEST_DB : String
  SQLALCHEMY_DATABASE_URI : Option String
  SQLALCHEMY_TEST_DATABASE_URI : Option String

/-- RedisSettings from core/config.py. -/
structure RedisSettings where
  HOST : String
  PORT : Int
  PASSWORD : String
  CHARSET : String
  DECODE_RESPONSES : Bool
  DEFAULT_TTL_SECONDS : Int
  DB_INDEX : Int

/-- SecuritySettings from core/config.py. -/
structure SecuritySettings where
  AES_ENCRYPTION_KEY_LENGTH : Int
  AES_GCM_NONCE_LENGTH : Int
  APP_ENCRYPTION_KEY : String
  CORS_ORIGINS : List String
  ENCODING : String
  OAUTH_ROOT_CLIENT_ID : String
  OAUTH_ROOT_CLIENT_SECRET : String
  OAUTH_ROOT_CLIENT_SECRET_HASH : Option (String × String)
  OAUTH_ACCESS_TOKEN_EXPIRE_MINUTES : Int
  OAUTH_CLIENT_ID_LENGTH_BYTES : Int
  OAUTH_CLIENT_SECRET_LENGTH_BYTES : Int

/-- ExecutionSettings from core/config.py. -/
structure ExecutionSettings where
  TASK_RETRY_COUNT : Int
  TASK_RETRY_DELAY : Int
  TASK_RETRY_BACKOFF : Int

/-- FidesopsConfig from core/config.py. -/
structure FidesopsConfig where
  database : DatabaseSettings
  redis : RedisSettings
  security : SecuritySettings
  execution : ExecutionSettings

/-- `DatabaseSettings` as a section of `FidesopsConfig.dict()`. -/
def databaseDict (d : DatabaseSettings) : List (String × ConfigVal) :=
  [("SERVER", .s d.SERVER), ("USER", .s d.USER), ("PASSWORD", .s d.PASSWORD),
   ("DB", .s d.DB), ("PORT", .s d.PORT), ("TEST_DB", .s d.TEST_DB),
   ("SQLALCHEMY_DATABASE_URI", .opt d.SQLALCHEMY_DATABASE_URI),
   ("SQLALCHEMY_TEST_DATABASE_URI", .opt d.SQLALCHEMY_TEST_DATABASE_URI)]

/-- `RedisSettings` as a section of `FidesopsConfig.dict()`. -/
def redisDict (r : RedisSettings) : List (String × ConfigVal) :=
  [("HOST", .s r.HOST), ("PORT", .n r.PORT), ("PASSWORD", .s r.PASSWORD),
   ("CHARSET", .s r.CHARSET), ("DECODE_RESPONSES", .b r.DECODE_RESPONSES),
   ("DEFAULT_TTL_SECONDS", .n r.DEFAULT_TTL_SECONDS), ("DB_INDEX", .n r.DB_INDEX)]

/-- `SecuritySettings` as a section of `FidesopsConfig.dict()`. -/
def securityDict (s : SecuritySettings) : List (String × ConfigVal) :=
  [("AES_ENCRYPTION_KEY_LENGTH", .n s.AES_ENCRYPTION_KEY_LENGTH),
   ("AES_GCM_NONCE_LENGTH", .n s.AES_GCM_NONCE_LENGTH),
   ("APP_ENCRYPTION_KEY", .s s.APP_ENCRYPTION_KEY),
   ("CORS_ORIGINS", .strs s.CORS_ORIGINS), ("ENCODING", .s s.ENCODING),
   ("OAUTH_ROOT_CLIENT_ID", .s s.OAUTH_ROOT_CLIENT_ID),
   ("OAUTH_ROOT_CLIENT_SECRET", .s s.OAUTH_ROOT_CLIENT_SECRET),
   ("OAUTH_ROOT_CLIENT_SECRET_HASH", .tup s.OAUTH_ROOT_CLIENT_SECRET_HASH),
   ("OAUTH_ACCESS_TOKEN_EXPIRE_MINUTES", .n s.OAUTH_ACCESS_TOKEN_EXPIRE_MINUTES),
   ("OAUTH_CLIENT_ID_LENGTH_BYTES", .n s.OAUTH_CLIENT_ID_LENGTH_BYTES),
   ("OAUTH_CLIENT_SECRET_LENGTH_BYTES", .n s.OAUTH_CLIENT_SECRET_LENGTH_BYTES)]

/-- `ExecutionSettings` as a section of `FidesopsConfig.dict()`. -/
def executionDict (e : ExecutionSettings) : List (String × ConfigVal) :=
  [("TASK_RETRY_COUNT", .n e.TASK_RETRY_COUNT),
   ("TASK_RETRY_DELAY", .n e.TASK_RETRY_DELAY),
   ("TASK_RETRY_BACKOFF", .n e.TASK_RETRY_BACKOFF)]

/-- `FidesopsConfig.dict()`: the nested settings as (section, keyed values). -/
def configDict (c : FidesopsConfig) : List (String × List (String × ConfigVal)) :=
  [("database", databaseDict c.database), ("redis", redisDict c.redis),
   ("security", securityDict c.security), ("execution", executionDict c.execution)]

/-- CONFIG_KEY_ALLOWLIST from core/config.py, verbatim. -/
def CONFIG_KEY_ALLOWLIST : List (String × List String) :=
  [("database", ["SERVER", "USER", "PORT", "DB", "TEST_DB"]),
   ("redis", ["HOST", "PORT", "CHARSET", "DECODE_RESPONSES",
              "DEFAULT_TTL_SECONDS", "DB_INDEX"]),
   ("security", ["CORS_ORIGINS", "ENCODING", "OAUTH_ACCESS_TOKEN_EXPIRE_MINUTES"]),
   ("execution", ["TASK_RETRY_COUNT", "TASK_RETRY_DELAY", "TASK_RETRY_BACKOFF"])]

/-- `get_censored_config` from core/config.py: for each allowlist section,
copy exactly the allowlisted keys out of the config dictionary. -/
def get_censored_config (c : FidesopsConfig) : List (String × List (String × ConfigVal)) :=
  CONFIG_KEY_ALLOWLIST.map fun kv =>
    let data := (alookup (configDict c) kv.1).getD []
    (kv.1, kv.2.map fun f => (f, (alookup data f).getD (.s "")))

/-! ### Embedded execution logs (privacy_request_endpoints.py) -/

/-- An ExecutionLog row as consumed by the status endpoint. -/
structure ExecutionLogRecord where
  dataset_name : String
  updated_at : Nat

/-- EMBEDDED_EXECUTION_LOG_LIMIT from privacy_request_endpoints.py. -/
def EMBEDDED_EXECUTION_LOG_LIMIT : Nat := 50

/-- `execution_logs_by_dataset_name` from privacy_request_endpoints.py: walk
the query result (already filtered to the request and ordered by
(dataset_name, updated_at asc)) and append each log to its dataset bucket,
skipping a log when its bucket is already longer than the limit. -/
def execution_logs_by_dataset_name (logs : List ExecutionLogRecord) :
    String → List ExecutionLogRecord :=
  logs.foldl (fun acc log =>
    if (acc log.dataset_name).length > EMBEDDED_EXECUTION_LOG_LIMIT then acc
    else fun ds => if ds = log.dataset_name then acc ds ++ [log] else acc ds)
    (fun _ => [])

/-- The first `EMBEDDED_EXECUTION_LOG_LIMIT + 1` logs of a dataset in query
order (the shape the truncation fold provably computes). -/
def bucketTake (pre : List ExecutionLogRecord) (ds : String) : List ExecutionLogRecord :=
  (pre.filter fun l => l.dataset_name = ds).take (EMBEDDED_EXECUTION_LOG_LIMIT + 1)

/-! ## Theorems -/

/-- Structural induction principle for `PValue` (the nested `List` arguments
are handled through membership). -/
theorem PValue.inductionOn (motive : PValue → Prop)
    (hstr : ∀ s, motive (.vstr s))
    (hint : ∀ n, motive (.vint n))
    (hnull : motive .vnull)
    (hobj : ∀ fs, (∀ kv ∈ fs, motive kv.2) → motive (.obj fs))
    (harr : ∀ es, (∀ e ∈ es, motive e) → motive (.arr es)) :
    ∀ v, motive v := fun v =>
  match v with
  | .vstr s => hstr s
  | .vint n => hint n
  | .vnull => hnull
  | .obj fs => hobj fs (fun kv hkv =>
      have : sizeOf kv.2 < 1 + sizeOf fs := by
        have h1 := List.sizeOf_lt_of_mem hkv
        cases kv with
        | mk k v2 => simp at h1 ⊢; omega
      PValue.inductionOn motive hstr hint hnull hobj harr kv.2)
  | .arr es => harr es (fun e he =>
      have : sizeOf e < 1 + sizeOf es := by
        have h1 := List.sizeOf_lt_of_mem he
        omega
      PValue.inductionOn motive hstr hint hnull hobj harr e)
termination_by v => sizeOf v

/-! ### C9: configuration censoring -/

/-- C9: `get_censored_config` returns exactly the sections and keys of
`CONFIG_KEY_ALLOWLIST` and nothing else; in particular the database and redis
passwords, the app encryption key, the OAuth root client credentials and the
root secret hash never appear among its keys. -/
theorem censored_config_matches_allowlist (c : FidesopsConfig) :
    ((get_censored_config c).map Prod.fst = CONFIG_KEY_ALLOWLIST.map Prod.fst) ∧
    (∀ sec ∈ get_censored_config c,
      sec.2.map Prod.fst = (alookup CONFIG_KEY_ALLOWLIST sec.1).getD []) ∧
    (∀ sec ∈ get_censored_config c, ∀ k ∈ sec.2.map Prod.fst,
      k ≠ "PASSWORD" ∧ k ≠ "APP_ENCRYPTION_KEY" ∧ k ≠ "OAUTH_ROOT_CLIENT_ID" ∧
      k ≠ "OAUTH_ROOT_CLIENT_SECRET" ∧ k ≠ "OAUTH_ROOT_CLIENT_SECRET_HASH") := by
  refine ⟨rfl, ?_, ?_⟩
  · intro sec hsec
    simp only [get_censored_config, CONFIG_KEY_ALLOWLIST, List.map_cons, List.map_nil,
      List.mem_cons, List.not_mem_nil, or_false] at hsec
    rcases hsec with h | h | h | h <;> subst h <;> rfl
  · intro sec hsec
    simp only [get_censored_config, CONFIG_KEY_ALLOWLIST, List.map_cons, List.map_nil,
      List.mem_cons, List.not_mem_nil, or_false] at hsec
    rcases hsec with h | h | h | h <;> subst h <;>
      simp only [List.map_cons, List.map_nil] <;> decide

/-! ### C10: embedded execution logs -/

/-- One step of the bucket fold preserves the `bucketTake` shape. -/
theorem bucketTake_step (pre : List ExecutionLogRecord) (log : ExecutionLogRecord) :
    (if (bucketTake pre log.dataset_name).length > EMBEDDED_EXECUTION_LOG_LIMIT then
      bucketTake pre
    else fun ds =>
      if ds = log.dataset_name then bucketTake pre ds ++ [log] else bucketTake pre ds)
    = bucketTake (pre ++ [log]) := by
  by_cases hlen : (bucketTake pre log.dataset_name).length > EMBEDDED_EXECUTION_LOG_LIMIT
  · rw [if_pos hlen]
    funext ds
    unfold bucketTake at hlen ⊢
    by_cases hds : ds = log.dataset_name
    · subst hds
      have hfl : (EMBEDDED_EXECUTION_LOG_LIMIT + 1) ≤
          (pre.filter fun l => l.dataset_name = log.dataset_name).length := by
        rw [List.length_take] at hlen
        omega
      simp only [List.filter_append, List.filter_cons, List.filter_nil]
      rw [if_pos (by simp)]
      rw [List.take_append_of_le_length hfl]
    · simp only [List.filter_append, List.filter_cons, List.filter_nil]
      rw [if_neg (by simpa using fun h => hds h.symm)]
      simp
  · rw [if_neg hlen]
    funext ds
    unfold bucketTake at hlen ⊢
    by_cases hds : ds = log.dataset_name
    · subst hds
      rw [if_pos rfl]
      have hfl : (pre.filter fun l => l.dataset_name = log.dataset_name).length ≤
          EMBEDDED_EXECUTION_LOG_LIMIT := by
        rw [List.length_take] at hlen
        push_neg at hlen
        rcases Nat.le_total (pre.filter fun l => l.dataset_name = log.dataset_name).length
            (EMBEDDED_EXECUTION_LOG_LIMIT + 1) with h | h
        · omega
        · omega
      have htk : (pre.filter fun l => l.dataset_name = log.dataset_name).take
          (EMBEDDED_EXECUTION_LOG_LIMIT + 1)
          = pre.filter fun l => l.dataset_name = log.dataset_name :=
        List.take_of_length_le (by omega)
      simp only [List.filter_append, List.filter_cons, List.filter_nil]
      rw [if_pos (by simp), htk]
      rw [List.take_of_length_le (by simp; omega)]
    · rw [if_neg hds]
      simp only [List.filter_append, List.filter_cons, List.filter_nil]
      rw [if_neg (by simpa using fun h => hds h.symm)]
      simp

/-- The bucket fold of `execution_logs_by_dataset_name` computes, for every
dataset, the first `limit + 1` logs of that dataset in query order. -/
theorem execution_logs_fold_eq_bucketTake (logs pre : List ExecutionLogRecord) :
    logs.foldl (fun acc log =>
        if (acc log.dataset_name).length > EMBEDDED_EXECUTION_LOG_LIMIT then acc
        else fun ds => if ds = log.dataset_name then acc ds ++ [log] else acc ds)
      (bucketTake pre)
    = bucketTake (pre ++ logs) := by
  induction logs generalizing pre with
  | nil => simp
  | cons log rest ih =>
    simp only [List.foldl_cons]
    rw [bucketTake_step]
    have := ih (pre ++ [log])
    rw [show (pre ++ [log]) ++ rest = pre ++ log :: rest by simp] at this
    exact this

/-- `execution_logs_by_dataset_name` equals `bucketTake` of the whole query
result. -/
theorem execution_logs_by_dataset_name_eq (logs : List ExecutionLogRecord) :
    execution_logs_by_dataset_name logs = bucketTake logs := by
  have h0 : (fun _ : String => ([] : List ExecutionLogRecord)) = bucketTake [] := by
    funext ds
    simp [bucketTake]
  unfold execution_logs_by_dataset_name
  rw [h0, execution_logs_fold_eq_bucketTake]
  simp

/-- C10: with a query result ordered by (dataset_name, updated_at asc), each
embedded per-dataset log list is the first `EMBEDDED_EXECUTION_LOG_LIMIT + 1`
logs of that dataset, hence holds at most 51 entries and is ordered by
updated_at ascending (the guard skips an entry only once the list length
exceeds the limit of 50). -/
theorem execution_logs_truncated_and_ordered (logs : List ExecutionLogRecord)
    (hsorted : logs.Pairwise fun a b =>
      a.dataset_name < b.dataset_name ∨
      (a.dataset_name = b.dataset_name ∧ a.updated_at ≤ b.updated_at))
    (ds : String) :
    execution_logs_by_dataset_name logs ds
      = (logs.filter fun l => l.dataset_name = ds).take (EMBEDDED_EXECUTION_LOG_LIMIT + 1) ∧
    (execution_logs_by_dataset_name logs ds).length ≤ EMBEDDED_EXECUTION_LOG_LIMIT + 1 ∧
    (execution_logs_by_dataset_name logs ds).Pairwise
      (fun a b => a.updated_at ≤ b.updated_at) := by
  have heq : execution_logs_by_dataset_name logs ds
      = (logs.filter fun l => l.dataset_name = ds).take (EMBEDDED_EXECUTION_LOG_LIMIT + 1) := by
    rw [execution_logs_by_dataset_name_eq]
    rfl
  refine ⟨heq, ?_, ?_⟩
  · rw [heq]
    exact le_trans (List.length_take_le _ _) (le_refl _)
  · rw [heq]
    have hfil : (logs.filter fun l => l.dataset_name = ds).Pairwise
        (fun a b => a.updated_at ≤ b.updated_at) := by
      have hsub : (logs.filter fun l => l.dataset_name = ds).Pairwise fun a b =>
          a.dataset_name < b.dataset_name ∨
          (a.dataset_name = b.dataset_name ∧ a.updated_at ≤ b.updated_at) :=
        hsorted.sublist (List.filter_sublist _)
      refine hsub.imp_of_mem ?_
      intro a b ha hb hR
      have ha' : a.dataset_name = ds := by
        have := List.of_mem_filter ha
        simpa using this
      have hb' : b.dataset_name = ds := by
        have := List.of_mem_filter hb
        simpa using this
      rcases hR with h | h
      · rw [ha', hb'] at h
        exact absurd h (lt_irrefl _)
      · exact h.2
    exact hfil.sublist (List.take_sublist _ _)

/-- C10 witness: a concrete sorted two-log query result. -/
theorem execution_logs_truncated_and_ordered_witness :
    execution_logs_by_dataset_name [⟨"mongo", 1⟩, ⟨"mongo", 2⟩] "mongo"
      = [⟨"mongo", 1⟩, ⟨"mongo", 2⟩] ∧
    (execution_logs_by_dataset_name [⟨"mongo", 1⟩, ⟨"mongo", 2⟩] "mongo").length
      ≤ EMBEDDED_EXECUTION_LOG_LIMIT + 1 := by
  have h := execution_logs_truncated_and_ordered [⟨"mongo", 1⟩, ⟨"mongo", 2⟩]
    (by
      constructor
      · intro b hb
        simp only [List.mem_singleton] at hb
        subst hb
        right
        exact ⟨rfl, by decide⟩
      · simp)
    "mongo"
  refine ⟨?_, h.2.1⟩
  rw [h.1]
  rfl

/-- C9 witness: a concrete configuration. -/
theorem censored_config_matches_allowlist_witness :
    ((get_censored_config
      ⟨⟨"server", "user", "dbsecret", "db", "5432", "test", none, none⟩,
       ⟨"host", 6379, "redissecret", "utf8", true, 3600, 0⟩,
       ⟨16, 12, "key", [], "UTF-8", "rootid", "rootsecret", none, 11520, 16, 16⟩,
       ⟨3, 1, 2⟩⟩).map Prod.fst = CONFIG_KEY_ALLOWLIST.map Prod.fst) :=
  (censored_config_matches_allowlist _).1

/-! ### C2: empty inputs generate no query -/

/-- C2: when no seeded field of the node has a non-empty list of non-None
input values (the map is empty, its lists are empty or all-None, or its keys
match no seeded field), `generate_query` yields `None` and `retrieve_data`
returns the empty row list executing no statement. -/
theorem retrieve_data_empty_inputs {α ρ : Type} (execQuery : SqlQuery α → List ρ)
    (node : NodeSpec) (input_data : List (String × List (Option α)))
    (h : ∀ k ∈ node.queryKeys, ((alookup input_data k).getD []).filterMap id = ([] : List α)) :
    generate_query node input_data = none ∧
    retrieve_data execQuery node input_data = ([], []) := by
  have hq : generate_query node input_data = none := by
    unfold generate_query
    have hcl : (node.queryKeys.filterMap fun k =>
        let vs := ((alookup input_data k).getD []).filterMap id
        if vs.isEmpty then none else some (k, vs)) = [] := by
      rw [List.filterMap_eq_nil_iff]
      intro k hk
      simp [h k hk]
    simp only [hcl]
    rfl
  refine ⟨hq, ?_⟩
  unfold retrieve_data
  rw [hq]

/-- C2 witness: empty, all-None and non-seeded inputs on a concrete node. -/
theorem retrieve_data_empty_inputs_witness :
    generate_query (α := Nat) ⟨"customer", ["email"]⟩ [("email", [none]), ("bad_key", [some 3])]
      = none ∧
    retrieve_data (ρ := Nat) (fun _ => [7]) ⟨"customer", ["email"]⟩
      [("email", [none]), ("bad_key", [some 3])] = ([], []) :=
  retrieve_data_empty_inputs (fun _ => [7]) ⟨"customer", ["email"]⟩
    [("email", [none]), ("bad_key", [some 3])] (by decide)

/-! ### C8: mask_data sums executed update counts -/

/-- C8: `mask_data` returns the sum over the rows of the affected-row counts
of the update statements it executes; a row for which `generate_update_stmt`
yields `None` (no primary-key field with a non-null value, or no field
targeted by an erasure rule) contributes 0 and executes no statement; the
empty row list masks 0. -/
theorem mask_data_sums_executed {α : Type}
    (genUpdate : List (String × Option α) → Option (SqlUpdate α))
    (execUpdate : SqlUpdate α → Nat) (rows : List (List (String × Option α))) :
    (mask_data genUpdate execUpdate rows).1
      = (rows.map fun r => ((genUpdate r).map execUpdate).getD 0).sum ∧
    (mask_data genUpdate execUpdate rows).2 = rows.filterMap genUpdate ∧
    mask_data genUpdate execUpdate ([] : List (List (String × Option α))) = (0, []) ∧
    (∀ (collection : String) (fields : List FieldDecl) (targets : List (List String))
      (row : List (String × Option α)),
      (∀ f ∈ fields, f.primary_key = true → (alookup row f.name).bind id = none) →
      generate_update_stmt collection fields targets row = none) ∧
    (∀ (collection : String) (fields : List FieldDecl) (targets : List (List String))
      (row : List (String × Option α)),
      (∀ f ∈ fields, dataCategoryMatch targets f.data_categories = false) →
      generate_update_stmt collection fields targets row = none) := by
  have key : mask_data genUpdate execUpdate rows
      = ((rows.map fun r => ((genUpdate r).map execUpdate).getD 0).sum,
         rows.filterMap genUpdate) := by
    unfold mask_data
    induction rows using List.reverseRecOn with
    | nil => rfl
    | append_singleton rs r ih =>
      rw [List.foldl_append, ih]
      cases hgr : genUpdate r <;>
        simp [hgr, List.map_append, List.filterMap_append]
  refine ⟨?_, ?_, ?_, ?_, ?_⟩
  · rw [key]
  · rw [key]
  · rfl
  · intro collection fields targets row hpk
    unfold generate_update_stmt
    have hfl : (fields.filterMap fun f =>
        if f.primary_key then ((alookup row f.name).bind id).map fun v => (f.name, v)
        else none) = [] := by
      rw [List.filterMap_eq_nil_iff]
      intro f hf
      by_cases hp : f.primary_key
      · have hx := hpk f hf hp
        rcases hb : alookup row f.name with _ | a
        · simp [hp, hb]
        · rw [hb] at hx
          simp at hx
          simp [hp, hb, hx]
      · simp [hp]
    simp only [hfl]
    rfl
  · intro collection fields targets row htg
    unfold generate_update_stmt
    have hms : (fields.filterMap fun f =>
        if dataCategoryMatch targets f.data_categories then some f.name else none) = [] := by
      rw [List.filterMap_eq_nil_iff]
      intro f hf
      simp [htg f hf]
    simp only [hms]
    cases (fields.filterMap fun f =>
        if f.primary_key then ((alookup row f.name).bind id).map fun v => (f.name, v)
        else none).head? <;> rfl

/-- C8 witness: a concrete no-primary-key row contributes 0; a concrete
masking run sums the executed counts. -/
theorem mask_data_sums_executed_witness :
    generate_update_stmt (α := Nat) "address" [⟨"id", false, [["A"]]⟩] [["A"]]
      [("id", some 1)] = none ∧
    mask_data (α := Nat)
      (generate_update_stmt "address" [⟨"id", false, [["A"]]⟩] [["A"]])
      (fun _ => 2) [[("id", some 1)]] = (0, []) := by
  have h := mask_data_sums_executed (α := Nat)
    (generate_update_stmt "address" [⟨"id", false, [["A"]]⟩] [["A"]])
    (fun _ => 2) [[("id", some 1)]]
  refine ⟨h.2.2.2.1 "address" [⟨"id", false, [["A"]]⟩] [["A"]] [("id", some 1)]
    (by decide), ?_⟩
  rfl

/-! ### C3: retry bound and error-iff-exhausted -/

/-- The retry loop records at most `remaining` `retrying` entries. -/
theorem retryGo_retrying_count {α : Type _} (call : Nat → Option α) :
    ∀ (r a : Nat), ((retryGo call a r).1.count ExecLogStatus.retrying) ≤ r := by
  intro r
  induction r with
  | zero =>
    intro a
    cases hc : call a <;> simp [retryGo, hc, List.count_cons, List.count_nil]
  | succ r ih =>
    intro a
    cases hc : call a with
    | some v => simp [retryGo, hc, List.count_cons, List.count_nil]
    | none =>
      have := ih (a + 1)
      simp only [retryGo, hc]
      simp only [List.count_cons]
      simp
      omega

/-- The retry loop records an `error` entry iff every attempt in the window
fails. -/
theorem retryGo_error_iff {α : Type _} (call : Nat → Option α) :
    ∀ (r a : Nat), ExecLogStatus.error ∈ (retryGo call a r).1 ↔
      (∀ i, a ≤ i → i ≤ a + r → call i = none) := by
  intro r
  induction r with
  | zero =>
    intro a
    cases hc : call a with
    | some v =>
      simp only [retryGo, hc]
      constructor
      · intro h
        simp at h
      · intro h
        have := h a (le_refl a) (by omega)
        rw [hc] at this
        exact absurd this (by simp)
    | none =>
      simp only [retryGo, hc]
      constructor
      · intro _ i hai hia
        have : i = a := by omega
        subst this
        exact hc
      · intro _
        simp
  | succ r ih =>
    intro a
    cases hc : call a with
    | some v =>
      simp only [retryGo, hc]
      constructor
      · intro h
        simp at h
      · intro h
        have := h a (le_refl a) (by omega)
        rw [hc] at this
        exact absurd this (by simp)
    | none =>
      simp only [retryGo, hc]
      constructor
      · intro h i hai hia
        rcases Nat.eq_or_lt_of_le hai with heq | hlt
        · subst heq
          exact hc
        · have hmem : ExecLogStatus.error ∈ (retryGo call (a + 1) r).1 := by
            simpa using h
          exact (ih (a + 1)).mp hmem i hlt (by omega)
      · intro h
        have hmem : ExecLogStatus.error ∈ (retryGo call (a + 1) r).1 :=
          (ih (a + 1)).mpr fun i hai hia => h i (by omega) (by omega)
        simp [hmem]

/-- C3: a node records at most `TASK_RETRY_COUNT` `retrying` log entries, and
an `error` entry exists iff all attempts (the first plus `TASK_RETRY_COUNT`
retries) failed; with `TASK_RETRY_COUNT = 1` and an always-throwing connector
the logs are exactly `[in_processing, retrying, error]`, with one `retrying`
and one `error`. -/
theorem retry_bound_and_error_iff {α : Type _} (retryCount : Nat) (call : Nat → Option α) :
    ((nodeLogs retryCount call).1.count ExecLogStatus.retrying ≤ retryCount) ∧
    (ExecLogStatus.error ∈ (nodeLogs retryCount call).1 ↔ ∀ i ≤ retryCount, call i = none) ∧
    ((nodeLogs 1 fun _ => (none : Option Unit)).1
      = [ExecLogStatus.in_processing, ExecLogStatus.retrying, ExecLogStatus.error]) ∧
    ((nodeLogs 1 fun _ => (none : Option Unit)).1.count ExecLogStatus.retrying = 1) ∧
    ((nodeLogs 1 fun _ => (none : Option Unit)).1.count ExecLogStatus.error = 1) := by
  refine ⟨?_, ?_, rfl, rfl, rfl⟩
  · unfold nodeLogs
    simp only [List.count_cons]
    have := retryGo_retrying_count call retryCount 0
    simp
    omega
  · unfold nodeLogs
    simp only [List.mem_cons]
    have := retryGo_error_iff call retryCount 0
    constructor
    · intro h i hi
      rcases h with h | h
      · exact absurd h (by simp)
      · exact this.mp h i (by omega) (by omega)
    · intro h
      right
      exact this.mpr fun i h0 hi => h i (by omega)

/-- C3 witness: the always-failing single-retry run. -/
theorem retry_bound_and_error_iff_witness :
    (nodeLogs 1 fun _ => (none : Option Unit)).1
      = [ExecLogStatus.in_processing, ExecLogStatus.retrying, ExecLogStatus.error] :=
  (retry_bound_and_error_iff 1 fun _ => (none : Option Unit)).2.2.1

/-! ### C1: erasure skips collections without a primary key -/

/-- Collections whose name differs everywhere contribute no matching log. -/
theorem run_erasure_logs_no_match (maskCounts : String → Nat) (nm : String) :
    ∀ (cols : List CollectionDecl), (∀ d ∈ cols, d.name ≠ nm) →
    ((run_erasure cols maskCounts).2.filter
      (fun l => l.collection = nm ∧ l.message = some noPkMessage)).length = 0 := by
  intro cols
  induction cols with
  | nil => intro _; rfl
  | cons d rest ih =>
    intro hall
    have hd : d.name ≠ nm := hall d (List.mem_cons_self d rest)
    have hrest := ih fun d' hd' => hall d' (List.mem_cons_of_mem d hd')
    unfold run_erasure at hrest ⊢
    simp only [List.foldr_cons, List.filter_append, List.length_append]
    rw [hrest]
    unfold erasureNodeStep
    by_cases hpk : hasPrimaryKey d <;> simp [hpk, hd]

/-- C1: for every collection without a `primary_key=true` field, the erasure
result map reports 0 for that collection, its node step masks 0 rows, and
exactly one execution log carries the message "No values were erased since no
primary key was defined for this collection". -/
theorem erasure_skips_collections_without_pk (cols : List CollectionDecl)
    (maskCounts : String → Nat) (c : CollectionDecl)
    (hc : c ∈ cols)
    (hnopk : c.fields.all (fun f => !f.primary_key) = true)
    (huniq : cols.countP (fun d => d.name = c.name) = 1) :
    ((c.name, 0) ∈ (run_erasure cols maskCounts).1) ∧
    ((erasureNodeStep c (maskCounts c.name)).1 = 0) ∧
    (((run_erasure cols maskCounts).2.filter
      (fun l => l.collection = c.name ∧ l.message = some noPkMessage)).length = 1) := by
  have hpk : hasPrimaryKey c = false := by
    unfold hasPrimaryKey
    rw [List.any_eq_false]
    intro f hf
    have := List.all_eq_true.mp hnopk f hf
    simpa using this
  have hstep : erasureNodeStep c (maskCounts c.name)
      = (0, [⟨c.name, .complete, some noPkMessage⟩]) := by
    unfold erasureNodeStep
    rw [hpk]
    rfl
  refine ⟨?_, by rw [hstep], ?_⟩
  · unfold run_erasure
    exact List.mem_map.mpr ⟨c, hc, by rw [hstep]⟩
  · induction cols with
    | nil => exact absurd hc (List.not_mem_nil c)
    | cons d rest ih =>
      by_cases hd : d.name = c.name
      · have hz : ∀ a ∈ rest, ¬a.name = c.name := by
          rw [List.countP_cons] at huniq
          simpa [hd] using huniq
        have hcd : c = d := by
          rcases List.mem_cons.mp hc with h | h
          · exact h
          · exact absurd rfl (hz c h)
        subst hcd
        have hno := run_erasure_logs_no_match maskCounts c.name rest hz
        unfold run_erasure at hno ⊢
        simp only [List.foldr_cons, List.filter_append, List.length_append]
        rw [hno, hstep]
        simp
      · have hcrest : c ∈ rest := by
          rcases List.mem_cons.mp hc with h | h
          · exact absurd (by rw [h]) hd
          · exact h
        have hcnt : rest.countP (fun d' => d'.name = c.name) = 1 := by
          rw [List.countP_cons] at huniq
          simpa [hd] using huniq
        have := ih hcrest hcnt
        unfold run_erasure at this ⊢
        simp only [List.foldr_cons, List.filter_append, List.length_append]
        rw [this]
        unfold erasureNodeStep
        by_cases hpkd : hasPrimaryKey d <;> simp [hpkd, hd]

/-- C1 witness: a concrete `address` collection with `primary_key=false`. -/
theorem erasure_skips_collections_without_pk_witness :
    ((("address" : String), (0 : Nat)) ∈
      (run_erasure [⟨"address", [⟨"id", false, [["A"]]⟩]⟩] fun _ => 5).1) ∧
    (((run_erasure [⟨"address", [⟨"id", false, [["A"]]⟩]⟩] fun _ => 5).2.filter
      (fun l => l.collection = "address" ∧ l.message = some noPkMessage)).length = 1) := by
  have h := erasure_skips_collections_without_pk
    [⟨"address", [⟨"id", false, [["A"]]⟩]⟩] (fun _ => 5)
    ⟨"address", [⟨"id", false, [["A"]]⟩]⟩ (by decide) (by decide) (by decide)
  exact ⟨h.1, h.2.2⟩

/-! ### C4: node errors do not abort the run; downstream sees empty inputs -/

/-- The retry loop of an always-failing call produces no result. -/
theorem retryGo_none_of_all_fail {α : Type _} (call : Nat → Option α)
    (h : ∀ i, call i = none) : ∀ (r a : Nat), (retryGo call a r).2 = none := by
  intro r
  induction r with
  | zero => intro a; simp [retryGo, h a]
  | succ r ih => intro a; simp [retryGo, h a, ih (a + 1)]

/-- C4: when every connector call throws, the run still completes: the access
result map is empty (errored nodes are omitted), every node publishes an
empty output, and every node's gathered inputs are empty. -/
theorem access_errors_propagate_empty {α : Type} [DecidableEq α]
    (nodes : List GraphNodeSpec) (retryCount : Nat)
    (connector : String → List (String × List α) → Nat → Option (List (List (String × α))))
    (hfail : ∀ nm inp att, connector nm inp att = none) :
    ((run_access nodes retryCount connector).1 = []) ∧
    (∀ m, (run_access nodes retryCount connector).2 m = []) ∧
    (∀ n ∈ nodes, ∀ kv ∈ nodeInputs (run_access nodes retryCount connector).2 n,
      kv.2 = []) := by
  have haux : ∀ (ns : List GraphNodeSpec)
      (st : List (String × List (List (String × α))) × (String → List (List (String × α)))),
      st.1 = [] → (∀ m, st.2 m = []) →
      (ns.foldl (accessStep retryCount connector) st).1 = [] ∧
      (∀ m, (ns.foldl (accessStep retryCount connector) st).2 m = []) := by
    intro ns
    induction ns with
    | nil => intro st h1 h2; exact ⟨h1, h2⟩
    | cons n rest ih =>
      intro st h1 h2
      have hres : (retryGo (connector n.name (nodeInputs st.2 n)) 0 retryCount).2 = none :=
        retryGo_none_of_all_fail _ (fun i => hfail n.name (nodeInputs st.2 n) i) retryCount 0
      have hstep : accessStep retryCount connector st n
          = (st.1, fun m => if m = n.name then [] else st.2 m) := by
        unfold accessStep
        rw [hres]
      simp only [List.foldl_cons, hstep]
      exact ih _ h1 (fun m => by by_cases hm : m = n.name <;> simp [hm, h2])
  have hmain := haux nodes ([], fun _ => []) rfl (fun _ => rfl)
  refine ⟨hmain.1, hmain.2, ?_⟩
  intro n _ kv hkv
  unfold nodeInputs at hkv
  rcases List.mem_map.mp hkv with ⟨e, _, heq⟩
  have : ((run_access nodes retryCount connector).2 e.1) = [] := hmain.2 e.1
  rw [← heq]
  simp [this]

/-- C4 witness: a concrete two-node chain with an always-throwing connector. -/
theorem access_errors_propagate_empty_witness :
    ((run_access (α := Nat)
      [⟨"customer", []⟩, ⟨"address", [("customer", "address_id", "id")]⟩] 1
      fun _ _ _ => none).1 = []) ∧
    ((run_access (α := Nat)
      [⟨"customer", []⟩, ⟨"address", [("customer", "address_id", "id")]⟩] 1
      fun _ _ _ => none).2 "customer" = []) := by
  have h := access_errors_propagate_empty (α := Nat)
    [⟨"customer", []⟩, ⟨"address", [("customer", "address_id", "id")]⟩] 1
    (fun _ _ _ => none) (fun _ _ _ => rfl)
  exact ⟨h.1, h.2.1 "customer"⟩

/-! ### C6: empty-container pruning -/

/-- Pruned dict entries are non-empty and recursively clean. -/
theorem pruneFields_noEmpty (fs : List (String × PValue))
    (h : ∀ kv ∈ fs, noEmptyInside (removeEmptyContainers kv.2) = true) :
    noEmptyFields (pruneFields fs) = true := by
  induction fs with
  | nil => rfl
  | cons kv rest ih =>
    obtain ⟨k, v⟩ := kv
    have hv := h (k, v) (List.mem_cons_self _ _)
    have hrest := ih fun kv' hkv' => h kv' (List.mem_cons_of_mem _ hkv')
    unfold pruneFields
    by_cases he : (removeEmptyContainers v).isEmptyContainer
    · simp only [he, if_true]
      exact hrest
    · simp only [he, if_false]
      unfold noEmptyFields
      simp [he, hv, hrest]

/-- Pruned array elements are non-empty and recursively clean. -/
theorem pruneElems_noEmpty (es : List PValue)
    (h : ∀ e ∈ es, noEmptyInside (removeEmptyContainers e) = true) :
    noEmptyElems (pruneElems es) = true := by
  induction es with
  | nil => rfl
  | cons e rest ih =>
    have he' := h e (List.mem_cons_self _ _)
    have hrest := ih fun e' he'' => h e' (List.mem_cons_of_mem _ he'')
    unfold pruneElems
    by_cases he : (removeEmptyContainers e).isEmptyContainer
    · simp only [he, if_true]
      exact hrest
    · simp only [he, if_false]
      unfold noEmptyElems
      simp [he, he', hrest]

/-- remove_empty_containers leaves no empty container strictly inside. -/
theorem removeEmptyContainers_noEmptyInside (v : PValue) :
    noEmptyInside (removeEmptyContainers v) = true := by
  induction v using PValue.inductionOn with
  | hstr s => rfl
  | hint n => rfl
  | hnull => rfl
  | hobj fs ih =>
    show noEmptyInside (.obj (pruneFields fs)) = true
    unfold noEmptyInside
    exact pruneFields_noEmpty fs ih
  | harr es ih =>
    show noEmptyInside (.arr (pruneElems es)) = true
    unfold noEmptyInside
    exact pruneElems_noEmpty es ih

/-- Pruned dict entries are a deletion-substructure of the original. -/
theorem pruneFields_sub (fs : List (String × PValue))
    (h : ∀ kv ∈ fs, SubVal (removeEmptyContainers kv.2) kv.2) :
    SubFields (pruneFields fs) fs := by
  induction fs with
  | nil => exact SubFields.nil
  | cons kv rest ih =>
    obtain ⟨k, v⟩ := kv
    have hv := h (k, v) (List.mem_cons_self _ _)
    have hrest := ih fun kv' hkv' => h kv' (List.mem_cons_of_mem _ hkv')
    unfold pruneFields
    by_cases he : (removeEmptyContainers v).isEmptyContainer
    · simp only [he, if_true]
      exact SubFields.drop k hrest
    · simp only [he, if_false]
      exact SubFields.keep k hv hrest

/-- Pruned array elements are a deletion-substructure of the original. -/
theorem pruneElems_sub (es : List PValue)
    (h : ∀ e ∈ es, SubVal (removeEmptyContainers e) e) :
    SubElems (pruneElems es) es := by
  induction es with
  | nil => exact SubElems.nil
  | cons e rest ih =>
    have he' := h e (List.mem_cons_self _ _)
    have hrest := ih fun e' he'' => h e' (List.mem_cons_of_mem _ he'')
    unfold pruneElems
    by_cases he : (removeEmptyContainers e).isEmptyContainer
    · simp only [he, if_true]
      exact SubElems.drop hrest
    · simp only [he, if_false]
      exact SubElems.keep he' hrest

/-- C6 counterexample: pruning a list shifts the indices of later elements,
so a retained value need not sit at the same path as in the input:
`remove_empty_containers [[], 1] = [1]`, and the value at index 0 of the
output (`1`) is not the value at index 0 of the input (`[]`). -/
theorem prune_not_path_preserving :
    ¬ (∀ (r : PValue) (p : List PathStep) (v' : PValue),
        getPath (removeEmptyContainers r) p = some v' → getPath r p = some v') := by
  intro h
  have h1 : getPath (removeEmptyContainers (.arr [.arr [], .vint 1])) [.idx 0]
      = some (.vint 1) := rfl
  have h2 := h _ _ _ h1
  rw [show getPath (PValue.arr [.arr [], .vint 1]) [.idx 0] = some (.arr []) from rfl] at h2
  simp at h2

/-- C6 (amended): the result of remove_empty_containers contains no empty
object and no empty array strictly inside, and every value it retains comes
from the input: dict entries keep their keys and list elements keep their
relative order (a deletion-substructure; list indices may shift down when
earlier empty elements are removed). -/
theorem prune_no_empty_and_retains (v : PValue) :
    noEmptyInside (removeEmptyContainers v) = true ∧
    SubVal (removeEmptyContainers v) v := by
  refine ⟨removeEmptyContainers_noEmptyInside v, ?_⟩
  induction v using PValue.inductionOn with
  | hstr s => exact SubVal.vstr s
  | hint n => exact SubVal.vint n
  | hnull => exact SubVal.vnull
  | hobj fs ih => exact SubVal.obj (pruneFields_sub fs ih)
  | harr es ih => exact SubVal.arr (pruneElems_sub es ih)

/-! ### C5: category selection and projection -/

/-- C5: a field is selected iff some requested category is a dotted-segment
prefix of some category on the field (whole segments, not a string prefix),
and the filtered row holds exactly the selected fields' values; the S5
scenario (requesting user.provided.identifiable.contact.street on the address
row) yields `{house: 123, street: "Example Street"}`. -/
theorem category_filter_selects_and_projects :
    (∀ (requested cats : List (List String)),
      dataCategoryMatch requested cats = true ↔
        ∃ r ∈ requested, ∃ c ∈ cats, ∃ t, r ++ t = c) ∧
    (∀ (requested : List (List String)) (fields : List (List String × List (List String))),
      matchingFieldPaths requested fields
        = (fields.filter fun f => dataCategoryMatch requested f.2).map Prod.fst) ∧
    (dataCategoryMatch [["user", "provided", "identifiable", "contact"]]
      [["user", "provided", "identifiable", "contact", "email"]] = true) ∧
    (dataCategoryMatch [["user", "provided", "identifiable", "cont"]]
      [["user", "provided", "identifiable", "contact", "email"]] = false) ∧
    (filterRowByCategories [["user", "provided", "identifiable", "contact", "street"]]
      [(["id"], [["system", "operations"]]),
       (["house"], [["user", "provided", "identifiable", "contact", "street"]]),
       (["street"], [["user", "provided", "identifiable", "contact", "street"]]),
       (["city"], [["user", "provided", "identifiable", "contact", "city"]]),
       (["state"], [["user", "provided", "identifiable", "contact", "state"]]),
       (["zip"], [["user", "provided", "identifiable", "contact", "postal_code"]])]
      (.obj [("id", .vint 1), ("house", .vint 123), ("street", .vstr "Example Street"),
             ("city", .vstr "Exampletown"), ("state", .vstr "NY"), ("zip", .vstr "12345")])
      = some (.obj [("house", .vint 123), ("street", .vstr "Example Street")])) := by
  refine ⟨?_, ?_, rfl, rfl, rfl⟩
  · intro requested cats
    unfold dataCategoryMatch
    simp only [List.any_eq_true, List.isPrefixOf_iff_prefix]
    constructor
    · rintro ⟨r, hr, c, hc, t, ht⟩
      exact ⟨r, hr, c, hc, t, ht⟩
    · rintro ⟨r, hr, c, hc, t, ht⟩
      exact ⟨r, hr, c, hc, t, ht⟩
  · intro requested fields
    induction fields with
    | nil => rfl
    | cons f rest ih =>
      by_cases hm : dataCategoryMatch requested f.2 <;>
        simp [matchingFieldPaths, List.filterMap_cons, List.filter_cons, hm] <;>
        simpa [matchingFieldPaths] using ih

/-! ### C7: filter idempotence — auxiliary lemmas -/
theorem lookupField_eq_none_iff (fs : List (String × PValue)) (k : String) :
    lookupField fs k = none ↔ ∀ kv ∈ fs, kv.1 ≠ k := by
  induction fs with
  | nil => simp [lookupField]
  | cons kv rest ih =>
    obtain ⟨k', v'⟩ := kv
    by_cases hk : k' = k <;> simp [lookupField, hk, ih]

theorem lookupField_mem {fs : List (String × PValue)} {k : String} {v : PValue}
    (h : lookupField fs k = some v) : (k, v) ∈ fs := by
  induction fs with
  | nil => exact absurd h (by simp [lookupField])
  | cons kv rest ih =>
    obtain ⟨k', v'⟩ := kv
    by_cases hk : k' = k
    · subst hk
      rw [lookupField, if_pos rfl] at h
      simp only [Option.some.injEq] at h
      subst h
      exact List.mem_cons_self _ _
    · rw [lookupField, if_neg hk] at h
      exact List.mem_cons_of_mem _ (ih h)

theorem lookupField_updateField (fs : List (String × PValue)) (k k' : String) (v : PValue) :
    lookupField (updateField fs k v) k'
      = if k' = k then some v else lookupField fs k' := by
  induction fs with
  | nil =>
    unfold updateField lookupField
    by_cases h : k = k'
    · subst h
      simp
    · simp [h, Ne.symm h, lookupField]
  | cons kv rest ih =>
    obtain ⟨k₁, v₁⟩ := kv
    unfold updateField
    by_cases h1 : k₁ = k
    · subst h1
      rw [if_pos rfl]
      unfold lookupField
      by_cases h2 : k₁ = k'
      · subst h2
        simp
      · simp [h2, Ne.symm h2]
    · rw [if_neg h1]
      unfold lookupField
      by_cases h2 : k₁ = k'
      · subst h2
        rw [if_pos rfl, if_pos rfl, if_neg (fun hh : k₁ = k => h1 hh)]
      · rw [if_neg h2, if_neg h2, ih]

theorem updateField_of_lookup_none {fs : List (String × PValue)} {k : String}
    (h : lookupField fs k = none) (v : PValue) :
    updateField fs k v = fs ++ [(k, v)] := by
  induction fs with
  | nil => rfl
  | cons kv rest ih =>
    obtain ⟨k', v'⟩ := kv
    rw [lookupField] at h
    by_cases hk : k' = k
    · rw [if_pos hk] at h
      exact absurd h (by simp)
    · rw [if_neg hk] at h
      simp [updateField, hk, ih h]

theorem reorderByKeys_nil_entries (ks : List String) : reorderByKeys ks [] = [] := by
  simp [reorderByKeys, lookupField]

theorem reorderByKeys_congr {K : List String} {e1 e2 : List (String × PValue)}
    (h : ∀ k ∈ K, lookupField e1 k = lookupField e2 k) :
    reorderByKeys K e1 = reorderByKeys K e2 := by
  induction K with
  | nil => rfl
  | cons k rest ih =>
    unfold reorderByKeys
    simp only [List.filterMap_cons]
    rw [h k (List.mem_cons_self _ _)]
    have := ih fun k' hk' => h k' (List.mem_cons_of_mem _ hk')
    unfold reorderByKeys at this
    rw [this]

theorem lookupField_reorderByKeys (ks : List String) (entries : List (String × PValue))
    (k : String) :
    lookupField (reorderByKeys ks entries) k
      = if k ∈ ks then lookupField entries k else none := by
  induction ks with
  | nil => simp [reorderByKeys, lookupField]
  | cons k' rest ih =>
    unfold reorderByKeys at ih ⊢
    simp only [List.filterMap_cons]
    by_cases hk : k' = k
    · subst hk
      cases hl : lookupField entries k' with
      | none =>
        simp only [Option.map_none']
        rw [ih]
        by_cases hm : k' ∈ rest
        · simp [hm, hl]
        · simp [hm, hl]
      | some v =>
        simp only [Option.map_some']
        rw [lookupField, if_pos rfl]
        simp [hl]
    · have hk2 : ¬(k = k') := fun h => hk h.symm
      cases hl : lookupField entries k' with
      | none =>
        simp only [Option.map_none']
        rw [ih]
        by_cases hm : k ∈ rest
        · simp [hm, hk2]
        · simp [hm, hk2]
      | some v =>
        simp only [Option.map_some']
        rw [lookupField, if_neg hk, ih]
        simp [List.mem_cons, hk2]

theorem keys_reorderByKeys_sublist (ks : List String) (entries : List (String × PValue)) :
    ((reorderByKeys ks entries).map Prod.fst).Sublist ks := by
  induction ks with
  | nil => exact List.Sublist.refl _
  | cons k rest ih =>
    unfold reorderByKeys at ih ⊢
    simp only [List.filterMap_cons]
    cases hl : lookupField entries k with
    | none =>
      simp only [Option.map_none']
      exact ih.trans (List.sublist_cons_self _ _)
    | some v =>
      simp only [Option.map_some', List.map_cons]
      exact List.Sublist.cons₂ _ ih

theorem keys_pruneFields_sublist (fs : List (String × PValue)) :
    ((pruneFields fs).map Prod.fst).Sublist (fs.map Prod.fst) := by
  induction fs with
  | nil => exact List.Sublist.refl _
  | cons kv rest ih =>
    obtain ⟨k, v⟩ := kv
    unfold pruneFields
    by_cases he : (removeEmptyContainers v).isEmptyContainer
    · simp only [he, if_true]
      exact ih.trans (List.sublist_cons_self _ _)
    · simp only [he, if_false, List.map_cons]
      exact List.Sublist.cons₂ _ ih

theorem reorderByKeys_of_keys_sublist {ks : List String} {E : List (String × PValue)}
    (hnd : ks.Nodup) (hsub : (E.map Prod.fst).Sublist ks) :
    reorderByKeys ks E = E := by
  induction ks generalizing E with
  | nil =>
    cases E with
    | nil => rfl
    | cons kv r => simp at hsub
  | cons k rest ih =>
    obtain ⟨hknotin, hndrest⟩ := List.nodup_cons.mp hnd
    cases E with
    | nil => exact reorderByKeys_nil_entries _
    | cons kv E' =>
      obtain ⟨k₁, w⟩ := kv
      simp only [List.map_cons] at hsub
      rcases List.cons_sublist_cons'.mp hsub with h | ⟨heq, h⟩
      · have hknot : ∀ kv' ∈ (k₁, w) :: E', kv'.1 ≠ k := by
          intro kv' hkv' hkeq
          exact hknotin (hkeq ▸ h.subset (List.mem_map_of_mem Prod.fst hkv'))
        unfold reorderByKeys
        simp only [List.filterMap_cons]
        rw [(lookupField_eq_none_iff _ _).mpr hknot]
        simp only [Option.map_none']
        have := ih hndrest (E := (k₁, w) :: E') (by simp only [List.map_cons]; exact h)
        unfold reorderByKeys at this
        exact this
      · subst heq
        unfold reorderByKeys
        simp only [List.filterMap_cons]
        rw [lookupField, if_pos rfl]
        simp only [Option.map_some']
        have hcongr : ∀ k'' ∈ rest, lookupField ((k₁, w) :: E') k''
            = lookupField E' k'' := by
          intro k'' hk''
          rw [lookupField, if_neg]
          intro hkeq
          exact hknotin (hkeq ▸ hk'')
        have h1 := reorderByKeys_congr (K := rest) hcongr
        have h2 := ih hndrest h
        unfold reorderByKeys at h1 h2
        rw [h1, h2]

theorem headOrder_append (P : List (List String)) (p : List String) :
    headOrder (P ++ [p]) = headOrderStep (headOrder P) p := by
  unfold headOrder
  rw [List.foldl_append]
  rfl

theorem mem_foldl_headOrderStep (P : List (List String)) :
    ∀ (acc : List String) (k : String),
      k ∈ P.foldl headOrderStep acc ↔ k ∈ acc ∨ ∃ p ∈ P, p.head? = some k := by
  induction P with
  | nil => intro acc k; simp
  | cons p P' ih =>
    intro acc k
    rw [List.foldl_cons, ih]
    have hstep : k ∈ headOrderStep acc p ↔ k ∈ acc ∨ p.head? = some k := by
      cases p with
      | nil => simp [headOrderStep]
      | cons k' ps =>
        unfold headOrderStep
        by_cases hk : k' ∈ acc
        · simp only [hk, if_true, List.head?_cons, Option.some.injEq]
          constructor
          · intro h
            exact Or.inl h
          · rintro (h | h)
            · exact h
            · exact h ▸ hk
        · simp [hk, List.mem_append, eq_comm]
    rw [hstep]
    simp only [List.mem_cons, List.head?_cons]
    constructor
    · rintro ((h | h) | ⟨q, hq, hqh⟩)
      · exact Or.inl h
      · exact Or.inr ⟨p, Or.inl rfl, h⟩
      · exact Or.inr ⟨q, Or.inr hq, hqh⟩
    · rintro (h | ⟨q, (rfl | hq), hqh⟩)
      · exact Or.inl (Or.inl h)
      · exact Or.inl (Or.inr hqh)
      · exact Or.inr ⟨q, hq, hqh⟩

theorem mem_headOrder (P : List (List String)) (k : String) :
    k ∈ headOrder P ↔ ∃ p ∈ P, p.head? = some k := by
  unfold headOrder
  rw [mem_foldl_headOrderStep]
  simp

theorem pathTails_eq_nil_of_not_mem_headOrder {P : List (List String)} {k : String}
    (h : k ∉ headOrder P) : pathTails P k = [] := by
  unfold pathTails
  rw [List.filterMap_eq_nil_iff]
  intro p hp
  cases p with
  | nil => rfl
  | cons k' ps =>
    by_cases hk : k' = k
    · exact absurd ((mem_headOrder P k).mpr ⟨k' :: ps, hp, by simp [hk]⟩) h
    · simp [hk]

theorem pathTails_append (P : List (List String)) (p : List String) (k : String) :
    pathTails (P ++ [p]) k = pathTails P k ++ pathTails [p] k := by
  unfold pathTails
  rw [List.filterMap_append]

theorem headOrder_nodup (P : List (List String)) : (headOrder P).Nodup := by
  have haux : ∀ (Q : List (List String)) (acc : List String), acc.Nodup →
      (Q.foldl headOrderStep acc).Nodup := by
    intro Q
    induction Q with
    | nil => intro acc h; exact h
    | cons p Q' ih =>
      intro acc h
      rw [List.foldl_cons]
      refine ih _ ?_
      cases p with
      | nil => exact h
      | cons k' ps =>
        unfold headOrderStep
        by_cases hk : k' ∈ acc
        · simp only [hk, if_true]
          exact h
        · simp only [hk, if_false]
          simp [List.nodup_append, h, hk]
  exact haux P [] (List.nodup_nil)

theorem mem_pathTails {P : List (List String)} {k : String} {ps : List String}
    (h : (k :: ps) ∈ P) : ps ∈ pathTails P k := by
  unfold pathTails
  exact List.mem_filterMap.mpr ⟨k :: ps, h, by simp⟩

theorem projElems_eq_map (P : List (List String)) (es : List PValue) :
    projElems P es = es.map (projRow P) := by
  induction es with
  | nil => rfl
  | cons e rest ih => simp [projElems, ih]

theorem projFields_eq_map (P : List (List String)) (fs : List (String × PValue)) :
    projFields P fs = fs.map fun kv => (kv.1, projRow (pathTails P kv.1) kv.2) := by
  induction fs with
  | nil => rfl
  | cons kv rest ih =>
    obtain ⟨k, v⟩ := kv
    simp [projFields, ih]

theorem lookupField_projFields (P : List (List String)) (fs : List (String × PValue))
    (k : String) :
    lookupField (projFields P fs) k
      = (lookupField fs k).map (projRow (pathTails P k)) := by
  induction fs with
  | nil => rfl
  | cons kv rest ih =>
    obtain ⟨k', v'⟩ := kv
    unfold projFields lookupField
    by_cases hk : k' = k
    · subst hk
      simp
    · simp [hk, ih]

theorem projRow_nil (v : PValue) : projRow [] v = defaultdictOrArray v := by
  cases v <;> rfl

theorem fieldsWF_iff (fs : List (String × PValue)) :
    fieldsWF fs = true ↔
      (∀ kv ∈ fs, rowWF kv.2 = true) ∧ (fs.map Prod.fst).Nodup := by
  induction fs with
  | nil => simp [fieldsWF]
  | cons kv rest ih =>
    obtain ⟨k, v⟩ := kv
    unfold fieldsWF
    have hnone : (!(lookupField rest k).isSome) = true ↔ ∀ kv ∈ rest, kv.1 ≠ k := by
      rw [show ((!(lookupField rest k).isSome) = true ↔ lookupField rest k = none) by
        cases lookupField rest k <;> simp]
      exact lookupField_eq_none_iff rest k
    rw [Bool.and_eq_true, Bool.and_eq_true, hnone, ih]
    simp only [List.map_cons, List.nodup_cons, List.mem_cons, List.mem_map]
    constructor
    · rintro ⟨⟨hk, hv⟩, hrest, hnd⟩
      refine ⟨?_, ?_, hnd⟩
      · rintro kv (rfl | hkv)
        · exact hv
        · exact hrest kv hkv
      · rintro ⟨kv, hkv, hk1⟩
        exact hk kv hkv hk1
    · rintro ⟨hall, hknot, hnd⟩
      exact ⟨⟨fun kv hkv heq => hknot ⟨kv, hkv, heq⟩, hall (k, v) (Or.inl rfl)⟩,
        fun kv hkv => hall kv (Or.inr hkv), hnd⟩

theorem elemsWF_iff (es : List PValue) :
    elemsWF es = true ↔ ∀ e ∈ es, rowWF e = true := by
  induction es with
  | nil => simp [elemsWF]
  | cons e rest ih =>
    unfold elemsWF
    rw [Bool.and_eq_true, ih]
    simp

theorem crashFreeElems_iff (p : List String) (es : List PValue) :
    crashFreeElems p es = true ↔ ∀ e ∈ es, crashFreePath p e = true := by
  induction es with
  | nil => simp [crashFreeElems]
  | cons e rest ih =>
    unfold crashFreeElems
    rw [Bool.and_eq_true, ih]
    simp

theorem crashFreeFields_of_none {fs : List (String × PValue)} {k : String}
    (h : lookupField fs k = none) (ps : List String) :
    crashFreeFields ps fs k = true := by
  induction fs with
  | nil => rfl
  | cons kv rest ih =>
    obtain ⟨k', v'⟩ := kv
    rw [lookupField] at h
    by_cases hk : k' = k
    · rw [if_pos hk] at h
      exact absurd h (by simp)
    · rw [if_neg hk] at h
      unfold crashFreeFields
      simp [hk, ih h]

theorem crashFreeFields_of_some {fs : List (String × PValue)} {k : String} {v : PValue}
    (hWF : fieldsWF fs = true) (h : lookupField fs k = some v) (ps : List String) :
    crashFreeFields ps fs k = crashFreePath ps v := by
  induction fs with
  | nil => exact absurd h (by simp [lookupField])
  | cons kv rest ih =>
    obtain ⟨k₁, v₁⟩ := kv
    unfold fieldsWF at hWF
    rw [Bool.and_eq_true, Bool.and_eq_true] at hWF
    obtain ⟨⟨hk1, hv1⟩, hrest⟩ := hWF
    rw [lookupField] at h
    by_cases hk : k₁ = k
    · rw [if_pos hk] at h
      simp only [Option.some.injEq] at h
      subst h
      subst hk
      have hnone : lookupField rest k₁ = none := by
        cases hl : lookupField rest k₁ with
        | none => rfl
        | some w => rw [hl] at hk1; simp at hk1
      unfold crashFreeFields
      rw [if_pos rfl, crashFreeFields_of_none hnone]
      simp
    · rw [if_neg hk] at h
      unfold crashFreeFields
      rw [if_neg hk, ih hrest h]
      simp

theorem mem_pruneElems {es : List PValue} {x : PValue} (h : x ∈ pruneElems es) :
    ∃ e ∈ es, x = removeEmptyContainers e ∧ x.isEmptyContainer = false := by
  induction es with
  | nil => exact absurd h (by simp [pruneElems])
  | cons e rest ih =>
    unfold pruneElems at h
    by_cases he : (removeEmptyContainers e).isEmptyContainer
    · rw [if_pos he] at h
      obtain ⟨e', he', hx⟩ := ih h
      exact ⟨e', List.mem_cons_of_mem _ he', hx⟩
    · rw [if_neg he] at h
      rcases List.mem_cons.mp h with hx | hx
      · exact ⟨e, List.mem_cons_self _ _, hx, by subst hx; simpa using he⟩
      · obtain ⟨e', he', hx'⟩ := ih hx
        exact ⟨e', List.mem_cons_of_mem _ he', hx'⟩

theorem lookupField_pruneFields {fs : List (String × PValue)}
    (hnd : (fs.map Prod.fst).Nodup) (k : String) :
    lookupField (pruneFields fs) k
      = (lookupField fs k).bind fun v =>
          if (removeEmptyContainers v).isEmptyContainer then none
          else some (removeEmptyContainers v) := by
  induction fs with
  | nil => rfl
  | cons kv rest ih =>
    obtain ⟨k₁, v₁⟩ := kv
    simp only [List.map_cons, List.nodup_cons] at hnd
    obtain ⟨hk1, hndrest⟩ := hnd
    unfold pruneFields
    by_cases he : (removeEmptyContainers v₁).isEmptyContainer
    · rw [if_pos he, ih hndrest]
      simp only [lookupField]
      by_cases hk : k₁ = k
      · subst hk
        rw [if_pos rfl]
        have hlr : lookupField rest k₁ = none := by
          rw [lookupField_eq_none_iff]
          intro kv hkv heq
          exact hk1 (List.mem_map.mpr ⟨kv, hkv, heq⟩)
        rw [hlr]
        simp [he]
      · rw [if_neg hk]
    · rw [if_neg he]
      simp only [lookupField]
      by_cases hk : k₁ = k
      · rw [if_pos hk, if_pos hk]
        simp [he]
      · rw [if_neg hk, if_neg hk, ih hndrest]

theorem prune_idem (v : PValue) :
    removeEmptyContainers (removeEmptyContainers v) = removeEmptyContainers v := by
  induction v using PValue.inductionOn with
  | hstr s => rfl
  | hint n => rfl
  | hnull => rfl
  | hobj fs ih =>
    have key : ∀ (gs : List (String × PValue)),
        (∀ kv ∈ gs,
          removeEmptyContainers (removeEmptyContainers kv.2) = removeEmptyContainers kv.2) →
        pruneFields (pruneFields gs) = pruneFields gs := by
      intro gs
      induction gs with
      | nil => intro _; rfl
      | cons kv rest ihf =>
        intro hmem
        obtain ⟨k, v'⟩ := kv
        have hv2 : removeEmptyContainers (removeEmptyContainers v')
            = removeEmptyContainers v' := by
          simpa using hmem (k, v') (List.mem_cons_self _ _)
        have hrest := ihf fun kv' hkv' => hmem kv' (List.mem_cons_of_mem _ hkv')
        by_cases he : (removeEmptyContainers v').isEmptyContainer = true
        · simp only [pruneFields, he, if_true]
          exact hrest
        · have he' : (removeEmptyContainers v').isEmptyContainer = false := by
            simpa using he
          simp only [pruneFields, he', Bool.false_eq_true, if_false]
          simp only [pruneFields, hv2, he', Bool.false_eq_true, if_false]
          rw [hrest]
    show PValue.obj (pruneFields (pruneFields fs)) = PValue.obj (pruneFields fs)
    exact congrArg PValue.obj (key fs ih)
  | harr es ih =>
    have key : ∀ (gs : List PValue),
        (∀ e ∈ gs,
          removeEmptyContainers (removeEmptyContainers e) = removeEmptyContainers e) →
        pruneElems (pruneElems gs) = pruneElems gs := by
      intro gs
      induction gs with
      | nil => intro _; rfl
      | cons e rest ihe =>
        intro hmem
        have hv2 := hmem e (List.mem_cons_self _ _)
        have hrest := ihe fun e' he' => hmem e' (List.mem_cons_of_mem _ he')
        by_cases he : (removeEmptyContainers e).isEmptyContainer = true
        · simp only [pruneElems, he, if_true]
          exact hrest
        · have he' : (removeEmptyContainers e).isEmptyContainer = false := by
            simpa using he
          simp only [pruneElems, he', Bool.false_eq_true, if_false]
          simp only [pruneElems, hv2, he', Bool.false_eq_true, if_false]
          rw [hrest]
    show PValue.arr (pruneElems (pruneElems es)) = PValue.arr (pruneElems es)
    exact congrArg PValue.arr (key es ih)

theorem reorderByKeys_append (ks1 ks2 : List String) (E : List (String × PValue)) :
    reorderByKeys (ks1 ++ ks2) E = reorderByKeys ks1 E ++ reorderByKeys ks2 E := by
  unfold reorderByKeys
  rw [List.filterMap_append]

theorem updateField_reorderByKeys_mem {ks : List String} {E : List (String × PValue)}
    {k : String} {w : PValue} (hnd : ks.Nodup) (hks : k ∈ ks)
    (hlE : lookupField E k = some w) (nv : PValue) :
    updateField (reorderByKeys ks E) k nv = reorderByKeys ks (updateField E k nv) := by
  induction ks with
  | nil => exact absurd hks (List.not_mem_nil k)
  | cons k₁ rest ih =>
    obtain ⟨hk1, hndrest⟩ := List.nodup_cons.mp hnd
    unfold reorderByKeys
    simp only [List.filterMap_cons]
    by_cases hk : k₁ = k
    · subst hk
      rw [show lookupField (updateField E k₁ nv) k₁ = some nv by
        rw [lookupField_updateField]; simp]
      rw [hlE]
      simp only [Option.map_some']
      rw [show updateField ((k₁, w) ::
          List.filterMap (fun k => Option.map (fun v => (k, v)) (lookupField E k)) rest) k₁ nv
        = (k₁, nv) ::
          List.filterMap (fun k => Option.map (fun v => (k, v)) (lookupField E k)) rest by
        unfold updateField
        rw [if_pos rfl]]
      have hcongr : ∀ k'' ∈ rest, lookupField (updateField E k₁ nv) k''
          = lookupField E k'' := by
        intro k'' hk''
        rw [lookupField_updateField, if_neg]
        intro heq
        exact hk1 (heq ▸ hk'')
      have := reorderByKeys_congr (K := rest) hcongr
      unfold reorderByKeys at this
      rw [this]
    · have hkrest : k ∈ rest := by
        rcases List.mem_cons.mp hks with h | h
        · exact absurd h.symm hk
        · exact h
      rw [show lookupField (updateField E k nv) k₁ = lookupField E k₁ by
        rw [lookupField_updateField, if_neg hk]]
      cases hl : lookupField E k₁ with
      | none =>
        simp only [Option.map_none']
        have := ih hndrest hkrest
        unfold reorderByKeys at this
        rw [this]
      | some w₁ =>
        simp only [Option.map_some']
        rw [show updateField ((k₁, w₁) ::
            List.filterMap (fun k => Option.map (fun v => (k, v)) (lookupField E k)) rest) k nv
          = (k₁, w₁) :: updateField
            (List.filterMap (fun k => Option.map (fun v => (k, v)) (lookupField E k)) rest) k nv by
          simp only [updateField]
          rw [if_neg hk]]
        have := ih hndrest hkrest
        unfold reorderByKeys at this
        rw [this]

theorem selectObjFields_lookup_none {gs : List (String × PValue)} {k : String}
    (h : lookupField gs k = none) (saved : PValue) (ps : List String) :
    selectObjFields saved gs k ps = some saved := by
  induction gs generalizing saved with
  | nil => rfl
  | cons kv rest ih =>
    obtain ⟨k₁, v₁⟩ := kv
    rw [lookupField] at h
    by_cases hk : k₁ = k
    · rw [if_pos hk] at h
      exact absurd h (by simp)
    · rw [if_neg hk] at h
      unfold selectObjFields
      rw [if_neg hk]
      exact ih h saved

theorem selectObjFields_lookup_some {gs : List (String × PValue)} {k : String} {v : PValue}
    (hnd : (gs.map Prod.fst).Nodup) (h : lookupField gs k = some v)
    (sfs : List (String × PValue)) (ps : List String) :
    selectObjFields (.obj sfs) gs k ps
      = (selectAndSaveField (savedInit sfs k v) v ps).map
          (fun nv => PValue.obj (updateField sfs k nv)) := by
  induction gs generalizing sfs with
  | nil => exact absurd h (by simp [lookupField])
  | cons kv rest ih =>
    obtain ⟨k₁, v₁⟩ := kv
    simp only [List.map_cons, List.nodup_cons] at hnd
    obtain ⟨hk1, hndrest⟩ := hnd
    rw [lookupField] at h
    by_cases hk : k₁ = k
    · rw [if_pos hk] at h
      simp only [Option.some.injEq] at h
      subst h
      subst hk
      unfold selectObjFields
      rw [if_pos rfl]
      show (match selectAndSaveField (savedInit sfs k₁ v₁) v₁ ps with
        | none => none
        | some nv => selectObjFields (PValue.obj (updateField sfs k₁ nv)) rest k₁ ps)
        = (selectAndSaveField (savedInit sfs k₁ v₁) v₁ ps).map
            (fun nv => PValue.obj (updateField sfs k₁ nv))
      cases hsel : selectAndSaveField (savedInit sfs k₁ v₁) v₁ ps with
      | none => simp
      | some nv =>
        simp only [Option.map_some']
        have hrest : lookupField rest k₁ = none := by
          rw [lookupField_eq_none_iff]
          intro kv hkv heq
          exact hk1 (List.mem_map.mpr ⟨kv, hkv, heq⟩)
        show selectObjFields (PValue.obj (updateField sfs k₁ nv)) rest k₁ ps
          = some (PValue.obj (updateField sfs k₁ nv))
        exact selectObjFields_lookup_none hrest _ ps
    · rw [if_neg hk] at h
      unfold selectObjFields
      rw [if_neg hk]
      exact ih hndrest h sfs

/-- The step property an element must satisfy for the list lemmas. -/
def SelStep (e : PValue) : Prop :=
  ∀ (Q : List (List String)) (p : List String), rowWF e = true →
    selectAndSaveField (projRow Q e) e p
      = if crashFreePath p e = true then some (projRow (Q ++ [p]) e) else none

theorem selectList_update_mode (p : List String) :
    ∀ (xs : List PValue) (R : List (List String)),
      (∀ e ∈ xs, SelStep e) →
      (∀ e ∈ xs, rowWF e = true) →
      selectList (projElems R xs) xs p
        = if crashFreeElems p xs = true then some (projElems (R ++ [p]) xs) else none := by
  intro xs
  induction xs with
  | nil =>
    intro R _ _
    simp [projElems, selectList, crashFreeElems]
  | cons e rest ih =>
    intro R hstep hWF
    have hse := hstep e (List.mem_cons_self _ _) R p (hWF e (List.mem_cons_self _ _))
    have hrest := ih R (fun e' he' => hstep e' (List.mem_cons_of_mem _ he'))
      (fun e' he' => hWF e' (List.mem_cons_of_mem _ he'))
    show selectList (projRow R e :: projElems R rest) (e :: rest) p = _
    show (match selectAndSaveField (projRow R e) e p with
      | none => none
      | some first =>
        match selectList (projElems R rest) rest p with
        | none => none
        | some r => some (first :: r)) = _
    rw [hse, hrest]
    by_cases h1 : crashFreePath p e = true
    · by_cases h2 : crashFreeElems p rest = true
      · rw [if_pos h1, if_pos h2]
        have hcc : crashFreeElems p (e :: rest) = true := by
          simp [crashFreeElems, h1, h2]
        rw [hcc]
        simp [projElems]
      · rw [if_pos h1, if_neg h2]
        have hcc : crashFreeElems p (e :: rest) = false := by
          simp [crashFreeElems, h1]
          simpa using h2
        rw [hcc]
        simp
    · rw [if_neg h1]
      have hcc : crashFreeElems p (e :: rest) = false := by
        simp [crashFreeElems]
        intro hc
        exact absurd hc h1
      rw [hcc]
      simp

theorem selectList_append_mode (p : List String) :
    ∀ (xs : List PValue),
      (∀ e ∈ xs, SelStep e) →
      (∀ e ∈ xs, rowWF e = true) →
      selectList [] xs p
        = if crashFreeElems p xs = true then some (projElems [p] xs) else none := by
  intro xs
  induction xs with
  | nil =>
    intro _ _
    simp [projElems, selectList, crashFreeElems]
  | cons e rest ih =>
    intro hstep hWF
    have hse : selectAndSaveField (defaultdictOrArray e) e p
        = if crashFreePath p e = true then some (projRow [p] e) else none := by
      rw [← projRow_nil e]
      simpa using hstep e (List.mem_cons_self _ _) [] p (hWF e (List.mem_cons_self _ _))
    have hrest := ih (fun e' he' => hstep e' (List.mem_cons_of_mem _ he'))
      (fun e' he' => hWF e' (List.mem_cons_of_mem _ he'))
    show (match selectAndSaveField (defaultdictOrArray e) e p with
      | none => none
      | some first =>
        match selectList [] rest p with
        | none => none
        | some r => some (first :: r)) = _
    rw [hse, hrest]
    by_cases h1 : crashFreePath p e = true
    · by_cases h2 : crashFreeElems p rest = true
      · rw [if_pos h1, if_pos h2]
        have hcc : crashFreeElems p (e :: rest) = true := by
          simp [crashFreeElems, h1, h2]
        rw [hcc]
        simp [projElems]
      · rw [if_pos h1, if_neg h2]
        have hcc : crashFreeElems p (e :: rest) = false := by
          simp [crashFreeElems, h1]
          simpa using h2
        rw [hcc]
        simp
    · rw [if_neg h1]
      have hcc : crashFreeElems p (e :: rest) = false := by
        simp [crashFreeElems]
        intro hc
        exact absurd hc h1
      rw [hcc]
      simp

/-- The core simulation: one select over path `p`, started from the projection
along `Q`, lands on the projection along `Q ++ [p]` (or crashes exactly when
`crashFreePath` says so). -/
theorem select_projRow_step (row : PValue) : SelStep row := by
  induction row using PValue.inductionOn with
  | hstr s =>
    intro Q p _
    show some (PValue.vstr s) = if crashFreePath p (PValue.vstr s) = true
      then some (projRow (Q ++ [p]) (PValue.vstr s)) else none
    rw [show crashFreePath p (PValue.vstr s) = true by cases p <;> rfl]
    rw [show projRow (Q ++ [p]) (PValue.vstr s) = PValue.vstr s from rfl]
    simp
  | hint n =>
    intro Q p _
    show some (PValue.vint n) = if crashFreePath p (PValue.vint n) = true
      then some (projRow (Q ++ [p]) (PValue.vint n)) else none
    rw [show crashFreePath p (PValue.vint n) = true by cases p <;> rfl]
    rw [show projRow (Q ++ [p]) (PValue.vint n) = PValue.vint n from rfl]
    simp
  | hnull =>
    intro Q p _
    show some PValue.vnull = if crashFreePath p PValue.vnull = true
      then some (projRow (Q ++ [p]) PValue.vnull) else none
    rw [show crashFreePath p PValue.vnull = true by cases p <;> rfl]
    rw [show projRow (Q ++ [p]) PValue.vnull = PValue.vnull from rfl]
    simp
  | harr es ih =>
    intro Q p hWF
    have hWFe : ∀ e ∈ es, rowWF e = true := (elemsWF_iff es).mp (by simpa [rowWF] using hWF)
    cases es with
    | nil =>
      have hc : crashFreePath p (.arr []) = true := by cases p <;> rfl
      have hpq : projRow Q (.arr []) = .arr [] := by cases Q <;> rfl
      have hp2 : projRow (Q ++ [p]) (.arr []) = .arr [] := by cases Q <;> rfl
      rw [hpq, hp2, hc]
      simp [selectAndSaveField]
    | cons e es' =>
      have harm : ∀ (ss : List PValue),
          selectAndSaveField (.arr ss) (.arr (e :: es')) p
            = (selectList ss (e :: es') p).map .arr := fun ss => rfl
      cases Q with
      | nil =>
        rw [show projRow [] (.arr (e :: es')) = .arr [] from rfl, harm]
        rw [selectList_append_mode p (e :: es') (fun e' he' => ih e' he') hWFe]
        rw [show crashFreePath p (.arr (e :: es')) = crashFreeElems p (e :: es')
          by cases p <;> rfl]
        by_cases hcf : crashFreeElems p (e :: es') = true
        · rw [if_pos hcf, if_pos hcf]
          rfl
        · rw [if_neg hcf, if_neg hcf]
          rfl
      | cons q Q' =>
        rw [show projRow (q :: Q') (.arr (e :: es'))
            = .arr (projElems (q :: Q') (e :: es')) from rfl, harm]
        rw [selectList_update_mode p (e :: es') (q :: Q') (fun e' he' => ih e' he') hWFe]
        rw [show crashFreePath p (.arr (e :: es')) = crashFreeElems p (e :: es')
          by cases p <;> rfl]
        by_cases hcf : crashFreeElems p (e :: es') = true
        · rw [if_pos hcf, if_pos hcf]
          rfl
        · rw [if_neg hcf, if_neg hcf]
          rfl
  | hobj fs ih =>
    intro Q p hWF
    have hWFf : fieldsWF fs = true := by simpa [rowWF] using hWF
    have hnd : (fs.map Prod.fst).Nodup := ((fieldsWF_iff fs).mp hWFf).2
    have hmemWF : ∀ kv ∈ fs, rowWF kv.2 = true := ((fieldsWF_iff fs).mp hWFf).1
    cases p with
    | nil =>
      cases fs with
      | nil =>
        show (if ([] : List (String × PValue)).isEmpty
            then some (projRow Q (.obj [])) else none) = _
        have h1 : projRow Q (.obj []) = .obj [] := by
          rw [show projRow Q (.obj [])
              = .obj (reorderByKeys (headOrder Q) (projFields Q [])) from rfl]
          rw [show projFields Q [] = [] from rfl, reorderByKeys_nil_entries]
        have h2 : projRow (Q ++ [[]]) (.obj []) = .obj [] := by
          rw [show projRow (Q ++ [[]]) (.obj [])
              = .obj (reorderByKeys (headOrder (Q ++ [[]])) (projFields (Q ++ [[]]) [])) from
            rfl]
          rw [show projFields (Q ++ [[]]) [] = [] from rfl, reorderByKeys_nil_entries]
        simp [crashFreePath, h1, h2]
      | cons kv fs' =>
        show (if ((kv :: fs').isEmpty) then some (projRow Q (.obj (kv :: fs'))) else none) = _
        simp [crashFreePath]
    | cons k ps =>
      rw [show projRow Q (.obj fs)
          = .obj (reorderByKeys (headOrder Q) (projFields Q fs)) from rfl]
      rw [show selectAndSaveField
          (.obj (reorderByKeys (headOrder Q) (projFields Q fs))) (.obj fs) (k :: ps)
          = selectObjFields
            (.obj (reorderByKeys (headOrder Q) (projFields Q fs))) fs k ps from rfl]
      cases hfk : lookupField fs k with
      | none =>
        rw [selectObjFields_lookup_none hfk _ ps]
        have hcf : crashFreePath (k :: ps) (.obj fs) = true :=
          crashFreeFields_of_none hfk ps
        rw [hcf, if_pos rfl]
        have hPF : projFields (Q ++ [k :: ps]) fs = projFields Q fs := by
          rw [projFields_eq_map, projFields_eq_map]
          apply List.map_congr_left
          intro kv hkv
          have hne : k ≠ kv.1 :=
            fun heq => (lookupField_eq_none_iff fs k).mp hfk kv hkv heq.symm
          rw [pathTails_append]
          rw [show pathTails [k :: ps] kv.1 = [] by simp [pathTails, hne], List.append_nil]
        rw [show projRow (Q ++ [k :: ps]) (.obj fs)
            = .obj (reorderByKeys (headOrder (Q ++ [k :: ps]))
                (projFields (Q ++ [k :: ps]) fs)) from rfl]
        rw [hPF, headOrder_append]
        by_cases hkHO : k ∈ headOrder Q
        · simp only [headOrderStep, hkHO, if_true]
        · simp only [headOrderStep, hkHO, if_false]
          rw [reorderByKeys_append]
          rw [show reorderByKeys [k] (projFields Q fs) = [] by
            simp [reorderByKeys, lookupField_projFields, hfk]]
          rw [List.append_nil]
      | some v =>
        have hvmem : (k, v) ∈ fs := lookupField_mem hfk
        have hWFv : rowWF v = true := by simpa using hmemWF (k, v) hvmem
        have hIHv : selectAndSaveField (projRow (pathTails Q k) v) v ps
            = if crashFreePath ps v = true
              then some (projRow (pathTails Q k ++ [ps]) v) else none := by
          simpa using ih (k, v) hvmem (pathTails Q k) ps hWFv
        rw [selectObjFields_lookup_some hnd hfk _ ps]
        have hsaved : savedInit (reorderByKeys (headOrder Q) (projFields Q fs)) k v
            = projRow (pathTails Q k) v := by
          unfold savedInit
          rw [lookupField_reorderByKeys, lookupField_projFields, hfk]
          by_cases hkHO : k ∈ headOrder Q
          · simp [hkHO]
          · simp only [hkHO, if_false]
            rw [pathTails_eq_nil_of_not_mem_headOrder hkHO, projRow_nil]
        rw [hsaved, hIHv]
        have hcf : crashFreePath (k :: ps) (.obj fs) = crashFreePath ps v :=
          crashFreeFields_of_some hWFf hfk ps
        have hPF' : ∀ k', lookupField (projFields (Q ++ [k :: ps]) fs) k'
            = if k' = k then some (projRow (pathTails Q k ++ [ps]) v)
              else lookupField (projFields Q fs) k' := by
          intro k'
          rw [lookupField_projFields, lookupField_projFields]
          by_cases hk' : k' = k
          · subst hk'
            rw [if_pos rfl, hfk]
            rw [pathTails_append, show pathTails [k' :: ps] k' = [ps] by simp [pathTails]]
            rfl
          · rw [if_neg hk']
            have hkk : ¬k = k' := fun h => hk' h.symm
            rw [pathTails_append, show pathTails [k :: ps] k' = [] by
              simp [pathTails, hkk], List.append_nil]
        by_cases hcv : crashFreePath ps v = true
        · rw [if_pos hcv]
          simp only [Option.map_some']
          rw [hcf, hcv, if_pos rfl]
          rw [show projRow (Q ++ [k :: ps]) (.obj fs)
              = .obj (reorderByKeys (headOrder (Q ++ [k :: ps]))
                  (projFields (Q ++ [k :: ps]) fs)) from rfl]
          rw [headOrder_append]
          by_cases hkHO : k ∈ headOrder Q
          · simp only [headOrderStep, hkHO, if_true]
            have hlkPF : lookupField (projFields Q fs) k
                = some (projRow (pathTails Q k) v) := by
              rw [lookupField_projFields, hfk]
              rfl
            rw [updateField_reorderByKeys_mem (headOrder_nodup Q) hkHO hlkPF]
            refine congrArg (fun l => some (PValue.obj l)) (reorderByKeys_congr ?_)
            intro k' _
            rw [lookupField_updateField, hPF' k']
          · simp only [headOrderStep, hkHO, if_false]
            rw [updateField_of_lookup_none (by
              rw [lookupField_reorderByKeys]
              simp [hkHO]) _]
            rw [reorderByKeys_append]
            have h1 : reorderByKeys (headOrder Q) (projFields (Q ++ [k :: ps]) fs)
                = reorderByKeys (headOrder Q) (projFields Q fs) := by
              refine reorderByKeys_congr ?_
              intro k' hk'
              rw [hPF' k', if_neg]
              intro heq
              exact hkHO (heq ▸ hk')
            have h2 : reorderByKeys [k] (projFields (Q ++ [k :: ps]) fs)
                = [(k, projRow (pathTails Q k ++ [ps]) v)] := by
              unfold reorderByKeys
              simp only [List.filterMap_cons, List.filterMap_nil]
              rw [hPF' k, if_pos rfl]
              rfl
            rw [h1, h2]
        · rw [if_neg hcv]
          simp only [Option.map_none']
          rw [hcf]
          rw [if_neg hcv]

theorem mem_pathTails_rev {P : List (List String)} {k : String} {ps : List String}
    (h : ps ∈ pathTails P k) : (k :: ps) ∈ P := by
  unfold pathTails at h
  obtain ⟨p, hp, hm⟩ := List.mem_filterMap.mp h
  cases p with
  | nil => exact absurd hm (by simp)
  | cons k' ps' =>
    have hm' : (if k' = k then some ps' else none) = some ps := hm
    by_cases hk : k' = k
    · rw [if_pos hk] at hm'
      simp only [Option.some.injEq] at hm'
      subst hk
      subst hm'
      exact hp
    · rw [if_neg hk] at hm'
      exact absurd hm' (by simp)

theorem lookupField_of_mem_nodup {fs : List (String × PValue)} {k : String} {v : PValue}
    (hnd : (fs.map Prod.fst).Nodup) (h : (k, v) ∈ fs) : lookupField fs k = some v := by
  induction fs with
  | nil => exact absurd h (List.not_mem_nil _)
  | cons kv rest ih =>
    obtain ⟨k₁, v₁⟩ := kv
    simp only [List.map_cons, List.nodup_cons] at hnd
    obtain ⟨hk1, hndrest⟩ := hnd
    rcases List.mem_cons.mp h with heq | hmem
    · have hk : k₁ = k := (congrArg Prod.fst heq).symm
      have hv : v₁ = v := (congrArg Prod.snd heq).symm
      subst hk
      subst hv
      simp [lookupField]
    · have hne : k₁ ≠ k := by
        intro heq
        exact hk1 (List.mem_map.mpr ⟨(k, v), hmem, heq.symm⟩)
      simp only [lookupField]
      rw [if_neg hne]
      exact ih hndrest hmem

theorem selectFrom_stays_none (row : PValue) (P : List (List String)) :
    (P.foldl (fun acc p => acc.bind fun x => selectAndSaveField x row p) none) = none := by
  induction P with
  | nil => rfl
  | cons p P' ih =>
    rw [List.foldl_cons]
    exact ih

/-- Folding select over a whole path list from the `Q`-projection yields the
`Q ++ P` projection (or `none` on the first crash). -/
theorem selectFrom_projRow (row : PValue) (hWF : rowWF row = true) :
    ∀ (P Q : List (List String)),
      selectFrom (projRow Q row) row P
        = if P.all (fun p => crashFreePath p row) = true
          then some (projRow (Q ++ P) row) else none := by
  intro P
  induction P with
  | nil =>
    intro Q
    simp [selectFrom]
  | cons p P' ih =>
    intro Q
    unfold selectFrom
    rw [List.foldl_cons]
    rw [show (some (projRow Q row)).bind (fun x => selectAndSaveField x row p)
        = selectAndSaveField (projRow Q row) row p from rfl]
    rw [select_projRow_step row Q p hWF]
    by_cases hc : crashFreePath p row = true
    · rw [if_pos hc]
      have hih := ih (Q ++ [p])
      unfold selectFrom at hih
      rw [hih, List.append_assoc]
      by_cases ha : P'.all (fun q => crashFreePath q row) = true
      · rw [if_pos ha, if_pos (by simp [List.all_cons, hc, ha])]
        rfl
      · rw [if_neg ha, if_neg (by simp [List.all_cons, hc]; simpa using ha)]
    · rw [if_neg hc]
      rw [selectFrom_stays_none row P']
      rw [if_neg (by simp [List.all_cons]; intro hcc; exact absurd hcc hc)]

/-- `selectAll` computes exactly the projection along the paths. -/
theorem selectAll_eq_proj (row : PValue) (hWF : rowWF row = true)
    (P : List (List String)) :
    selectAll P row
      = if P.all (fun p => crashFreePath p row) = true
        then some (projRow P row) else none := by
  unfold selectAll
  have h := selectFrom_projRow row hWF P []
  unfold selectFrom at h
  rw [show defaultdictOrArray row = projRow [] row from (projRow_nil row).symm]
  rw [h]
  simp

/-- The pruned projection is a fixed point of projecting again: it projects
to itself, stays crash-free, and remains a well-formed row. -/
theorem proj_prune_proj (row : PValue) :
    ∀ (T : List (List String)),
      rowWF row = true →
      (∀ q ∈ T, crashFreePath q row = true) →
      (projRow T (removeEmptyContainers (projRow T row))
        = removeEmptyContainers (projRow T row)) ∧
      (∀ q ∈ T, crashFreePath q (removeEmptyContainers (projRow T row)) = true) ∧
      (rowWF (removeEmptyContainers (projRow T row)) = true) := by
  induction row using PValue.inductionOn with
  | hstr s =>
    intro T _ _
    exact ⟨rfl, fun q _ => by cases q <;> rfl, rfl⟩
  | hint n =>
    intro T _ _
    exact ⟨rfl, fun q _ => by cases q <;> rfl, rfl⟩
  | hnull =>
    intro T _ _
    exact ⟨rfl, fun q _ => by cases q <;> rfl, rfl⟩
  | harr es ihm =>
    intro T hWF hcf
    have hWFe : ∀ e ∈ es, rowWF e = true := (elemsWF_iff es).mp (by simpa [rowWF] using hWF)
    cases T with
    | nil => exact ⟨rfl, fun q hq => absurd hq (List.not_mem_nil q), rfl⟩
    | cons t T' =>
      have hcfe : ∀ e ∈ es, ∀ q ∈ t :: T', crashFreePath q e = true := by
        intro e he q hq
        have h1 := hcf q hq
        rw [show crashFreePath q (.arr es) = crashFreeElems q es by cases q <;> rfl] at h1
        exact (crashFreeElems_iff q es).mp h1 e he
      have hL : ∀ x ∈ pruneElems (projElems (t :: T') es),
          (projRow (t :: T') x = x) ∧ (∀ q ∈ t :: T', crashFreePath q x = true) ∧
          rowWF x = true := by
        intro x hx
        obtain ⟨y, hy, hxy, _⟩ := mem_pruneElems hx
        rw [projElems_eq_map] at hy
        obtain ⟨e, he, rfl⟩ := List.mem_map.mp hy
        subst hxy
        have := ihm e he (t :: T') (hWFe e he) (hcfe e he)
        exact ⟨this.1, this.2.1, this.2.2⟩
      refine ⟨?_, ?_, ?_⟩
      · show projRow (t :: T') (.arr (pruneElems (projElems (t :: T') es)))
            = .arr (pruneElems (projElems (t :: T') es))
        rw [show projRow (t :: T') (.arr (pruneElems (projElems (t :: T') es)))
            = .arr (projElems (t :: T') (pruneElems (projElems (t :: T') es))) from rfl]
        congr 1
        rw [projElems_eq_map]
        rw [List.map_congr_left fun x hx => (hL x hx).1]
        exact List.map_id _
      · intro q hq
        show crashFreePath q (.arr (pruneElems (projElems (t :: T') es))) = true
        rw [show crashFreePath q (.arr (pruneElems (projElems (t :: T') es)))
            = crashFreeElems q (pruneElems (projElems (t :: T') es)) by cases q <;> rfl]
        rw [crashFreeElems_iff]
        intro x hx
        exact (hL x hx).2.1 q hq
      · show rowWF (.arr (pruneElems (projElems (t :: T') es))) = true
        rw [show rowWF (.arr (pruneElems (projElems (t :: T') es)))
            = elemsWF (pruneElems (projElems (t :: T') es)) from rfl]
        rw [elemsWF_iff]
        intro x hx
        exact (hL x hx).2.2
  | hobj fs ihm =>
    intro T hWF hcf
    have hWFf : fieldsWF fs = true := by simpa [rowWF] using hWF
    have hnd : (fs.map Prod.fst).Nodup := ((fieldsWF_iff fs).mp hWFf).2
    have hmemWF : ∀ kv ∈ fs, rowWF kv.2 = true := ((fieldsWF_iff fs).mp hWFf).1
    have hEnodup : ((reorderByKeys (headOrder T) (projFields T fs)).map Prod.fst).Nodup :=
      (headOrder_nodup T).sublist (keys_reorderByKeys_sublist _ _)
    have hGkeys : ((pruneFields (reorderByKeys (headOrder T) (projFields T fs))).map
        Prod.fst).Sublist (headOrder T) :=
      (keys_pruneFields_sublist _).trans (keys_reorderByKeys_sublist _ _)
    have hGnodup : ((pruneFields (reorderByKeys (headOrder T) (projFields T fs))).map
        Prod.fst).Nodup := (headOrder_nodup T).sublist hGkeys
    have hGfact : ∀ k w,
        lookupField (pruneFields (reorderByKeys (headOrder T) (projFields T fs))) k = some w →
        (projRow (pathTails T k) w = w) ∧
        (∀ q ∈ pathTails T k, crashFreePath q w = true) ∧ rowWF w = true := by
      intro k w hG
      rw [lookupField_pruneFields hEnodup, lookupField_reorderByKeys] at hG
      by_cases hkHO : k ∈ headOrder T
      · rw [if_pos hkHO, lookupField_projFields] at hG
        cases hfk : lookupField fs k with
        | none =>
          rw [hfk] at hG
          exact absurd hG (by simp)
        | some u =>
          rw [hfk] at hG
          simp only [Option.map_some'] at hG
          have hG' : (if (removeEmptyContainers (projRow (pathTails T k) u)).isEmptyContainer
                = true then none
              else some (removeEmptyContainers (projRow (pathTails T k) u))) = some w := hG
          clear hG
          by_cases he : (removeEmptyContainers (projRow (pathTails T k) u)).isEmptyContainer
            = true
          · rw [if_pos he] at hG'
            exact absurd hG' (by simp)
          · rw [if_neg he] at hG'
            simp only [Option.some.injEq] at hG'
            subst hG'
            have humem : (k, u) ∈ fs := lookupField_mem hfk
            have hucf : ∀ q ∈ pathTails T k, crashFreePath q u = true := by
              intro q hq
              have hmem := mem_pathTails_rev hq
              have h1 := hcf (k :: q) hmem
              rw [show crashFreePath (k :: q) (.obj fs) = crashFreeFields q fs k from rfl,
                crashFreeFields_of_some hWFf hfk q] at h1
              exact h1
            have := ihm (k, u) humem (pathTails T k) (by simpa using hmemWF (k, u) humem)
              hucf
            exact ⟨this.1, this.2.1, this.2.2⟩
      · rw [if_neg hkHO] at hG
        exact absurd hG (by simp)
    have hGWF : fieldsWF (pruneFields (reorderByKeys (headOrder T)
        (projFields T fs))) = true := by
      rw [fieldsWF_iff]
      refine ⟨?_, hGnodup⟩
      intro kv hkv
      have hlk := lookupField_of_mem_nodup hGnodup
        (show (kv.1, kv.2) ∈ _ from by simpa using hkv)
      exact (hGfact kv.1 kv.2 hlk).2.2
    refine ⟨?_, ?_, ?_⟩
    · show projRow T (.obj (pruneFields (reorderByKeys (headOrder T) (projFields T fs))))
        = .obj (pruneFields (reorderByKeys (headOrder T) (projFields T fs)))
      rw [show projRow T (.obj (pruneFields (reorderByKeys (headOrder T) (projFields T fs))))
          = .obj (reorderByKeys (headOrder T)
              (projFields T (pruneFields (reorderByKeys (headOrder T) (projFields T fs)))))
        from rfl]
      congr 1
      have hcongr : ∀ k ∈ headOrder T,
          lookupField (projFields T (pruneFields (reorderByKeys (headOrder T)
            (projFields T fs)))) k
          = lookupField (pruneFields (reorderByKeys (headOrder T) (projFields T fs))) k := by
        intro k _
        rw [lookupField_projFields]
        cases hGk : lookupField (pruneFields (reorderByKeys (headOrder T)
            (projFields T fs))) k with
        | none => simp
        | some w =>
          simp only [Option.map_some']
          rw [(hGfact k w hGk).1]
      rw [reorderByKeys_congr hcongr]
      exact reorderByKeys_of_keys_sublist (headOrder_nodup T) hGkeys
    · intro q hq
      cases q with
      | nil =>
        have h1 := hcf [] hq
        rw [show crashFreePath [] (.obj fs) = fs.isEmpty from rfl] at h1
        have hfs : fs = [] := by
          cases fs with
          | nil => rfl
          | cons kv fs' => exact absurd h1 (by simp)
        subst hfs
        show crashFreePath [] (.obj (pruneFields (reorderByKeys (headOrder T)
          (projFields T [])))) = true
        rw [show projFields T ([] : List (String × PValue)) = [] from rfl,
          reorderByKeys_nil_entries]
        rfl
      | cons k ps =>
        show crashFreeFields ps (pruneFields (reorderByKeys (headOrder T)
          (projFields T fs))) k = true
        cases hGk : lookupField (pruneFields (reorderByKeys (headOrder T)
            (projFields T fs))) k with
        | none => exact crashFreeFields_of_none hGk ps
        | some w =>
          rw [crashFreeFields_of_some hGWF hGk ps]
          exact (hGfact k w hGk).2.1 ps (mem_pathTails hq)
    · show rowWF (.obj (pruneFields (reorderByKeys (headOrder T) (projFields T fs)))) = true
      exact hGWF

/-- Select-then-prune is idempotent on well-formed rows: a successful filter
output filters to itself along the same paths. -/
theorem filterRow_idem (paths : List (List String)) (r v : PValue)
    (hWF : rowWF r = true) (h : filterRow paths r = some v) :
    filterRow paths v = some v := by
  unfold filterRow at h ⊢
  rw [selectAll_eq_proj r hWF paths] at h
  by_cases hall : paths.all (fun p => crashFreePath p r) = true
  · rw [if_pos hall] at h
    simp only [Option.map_some', Option.some.injEq] at h
    have hcf : ∀ q ∈ paths, crashFreePath q r = true := by
      intro q hq
      exact List.all_eq_true.mp hall q hq
    obtain ⟨h1, h2, h3⟩ := proj_prune_proj r paths hWF hcf
    subst h
    rw [selectAll_eq_proj _ h3 paths]
    rw [if_pos (List.all_eq_true.mpr h2)]
    simp only [Option.map_some', Option.some.injEq]
    rw [h1, prune_idem]
  · rw [if_neg hall] at h
    exact absurd h (by simp)

/-- C7: the result filter is idempotent — for every well-formed row `r`
(unique dict keys at every level, as Python dicts guarantee) and requested
category set, if filtering `r` (field-path selection followed by
empty-container pruning) succeeds with result `v`, then filtering `v` with the
same categories and field declarations yields `v` again. -/
theorem filter_data_categories_idempotent (requested : List (List String))
    (fields : List (List String × List (List String))) (r v : PValue)
    (hWF : rowWF r = true)
    (h : filterRowByCategories requested fields r = some v) :
    filterRowByCategories requested fields v = some v :=
  filterRow_idem (matchingFieldPaths requested fields) r v hWF h

/-- Witness for C7 at a concrete row and category set. -/
theorem filter_data_categories_idempotent_witness :
    rowWF (.obj [("a", .vint 1), ("b", .vint 2)]) = true ∧
    filterRowByCategories [["A"]] [(["a"], [["A"]]), (["b"], [["B"]])]
      (.obj [("a", .vint 1), ("b", .vint 2)]) = some (.obj [("a", .vint 1)]) ∧
    filterRowByCategories [["A"]] [(["a"], [["A"]]), (["b"], [["B"]])]
      (.obj [("a", .vint 1)]) = some (.obj [("a", .vint 1)]) :=
  ⟨rfl, rfl,
    filter_data_categories_idempotent [["A"]] [(["a"], [["A"]]), (["b"], [["B"]])]
      (.obj [("a", .vint 1), ("b", .vint 2)]) (.obj [("a", .vint 1)]) rfl rfl⟩

end Fidesops
